import Mathlib

/-!
Verification development for `scripts/generate_docs.py`, the MDX documentation
generator of this repository.  Python strings are embedded as `List Char`
(`String.data` of a literal); every function below is a direct transcription of
the corresponding Python function, with regular-expression searches replaced by
equivalent deterministic scanners (the equivalence argument is documented at
each definition).  All definitions are executable and structurally recursive
(scanners take an explicit fuel argument, always called with the length of the
scanned text, which bounds the number of single-character advances).
-/

set_option maxRecDepth 8000

/-- Convert a Lean string literal to the character-list representation. -/
def ofStr (s : String) : List Char := s.data

/-- Python `str.strip` whitespace set (ASCII): space, tab, newline, CR, VT, FF. -/
def isWS (c : Char) : Bool :=
  c == ' ' || c == '\t' || c == '\n' || c == '\r' || c == '\x0b' || c == '\x0c'

/-- Python regex `\w` on ASCII input: letters, digits, underscore. -/
def isWord (c : Char) : Bool := c.isAlphanum || c == '_'

/-- Drop leading whitespace (Python `str.lstrip()` with no argument). -/
def trimL (l : List Char) : List Char := l.dropWhile isWS

/-- Drop trailing whitespace (Python `str.rstrip()` with no argument). -/
def trimR : List Char → List Char
  | [] => []
  | c :: rest =>
    let r := trimR rest
    if r.isEmpty then (if isWS c then [] else [c]) else c :: r

/-- Python `str.strip()`: drop leading and trailing whitespace. -/
def pstrip (l : List Char) : List Char := trimR (trimL l)

/-- Python `str.lstrip(set)`: drop the maximal leading run of characters that
belong to `set` (note: a character *set*, not a prefix string). -/
def lstripSet (set : List Char) (l : List Char) : List Char :=
  l.dropWhile (fun c => set.contains c)

/-- `sub` occurs as a contiguous substring of `l` (Python `sub in l`). -/
def containsSub (sub l : List Char) : Bool :=
  l.tails.any (fun t => sub.isPrefixOf t)

/-- Number of positions of `l` at which `sub` occurs. -/
def countSub (sub l : List Char) : Nat :=
  (l.tails.filter (fun t => sub.isPrefixOf t)).length

/-- Python `s.split("\n")`: always returns at least one (possibly empty) part. -/
def splitNl : List Char → List (List Char)
  | [] => [[]]
  | c :: rest =>
    if c = '\n' then [] :: splitNl rest
    else
      match splitNl rest with
      | [] => [[c]]
      | h :: t => (c :: h) :: t

/-- Python `"\n".join(parts)`. -/
def joinNl : List (List Char) → List Char
  | [] => []
  | [l] => l
  | l :: ls => l ++ '\n' :: joinNl ls

/-- Greedy span: `(l.takeWhile p, l.dropWhile p)` computed in one pass. -/
def spanP (p : Char → Bool) : List Char → List Char × List Char
  | [] => ([], [])
  | c :: rest =>
    if p c then
      let (t, r) := spanP p rest
      (c :: t, r)
    else ([], c :: rest)

/-- Python `str.replace(old, new)` (left-to-right, non-overlapping), with fuel;
`old` is never `[]` at any call site.  Fuel `l.length` suffices because each
step consumes at least one character. -/
def replaceSub : Nat → List Char → List Char → List Char → List Char
  | 0, _, _, l => l
  | _ + 1, _, _, [] => []
  | fuel + 1, old, new, c :: rest =>
    if old ≠ [] ∧ old.isPrefixOf (c :: rest) then
      new ++ replaceSub fuel old new ((c :: rest).drop old.length)
    else c :: replaceSub fuel old new rest

/-- Python `l.replace(old, new)`. -/
def pyReplace (old new l : List Char) : List Char := replaceSub l.length old new l

/-! ## Stage A: `clean_rustdoc` (generate_docs.py lines 15-27) -/

/-- One line of `clean_rustdoc`'s loop.  Note the Python source uses
`line.lstrip("//! ")` / `line.lstrip("/// ")`, which strips the character
*sets* `\x7b '/', '!', ' '\x7d` and `\x7b '/', ' '\x7d`, not the marker as a prefix. -/
def cleanLine (line : List Char) : List Char :=
  if (ofStr "//!").isPrefixOf (pstrip line) then
    pstrip (lstripSet (ofStr "//! ") line)
  else if (ofStr "///").isPrefixOf (pstrip line) then
    pstrip (lstripSet (ofStr "/// ") line)
  else pstrip line

/-- `clean_rustdoc`: strip doc-comment markers per line, drop lines that become
empty, join with newlines. -/
def clean_rustdoc (s : List Char) : List Char :=
  if s.isEmpty then []
  else joinNl (((splitNl s).map cleanLine).filter (fun l => !l.isEmpty))

/-! ## Stage B: `format_rustdoc_to_markdown` (lines 30-79) -/

def fenceMark : List Char := ofStr "```"
def tagNoRun : List Char := ofStr "rust,no_run"
def tagIgnore : List Char := ofStr "rust,ignore"

def hasTag (s : List Char) : Bool := containsSub tagNoRun s || containsSub tagIgnore s

/-- `stripped.replace("rust,no_run", "rust").replace("rust,ignore", "rust")`. -/
def rewriteTags (s : List Char) : List Char :=
  pyReplace tagIgnore (ofStr "rust") (pyReplace tagNoRun (ofStr "rust") s)

/-- One iteration of the `format_rustdoc_to_markdown` loop: given the current
`code_block` flag and one line, produce the new flag and the emitted line.
Branches follow the Python source in order: fence (toggle + possible tag
rewrite), blank, heading (outside fences), `-` list, `*` list, markdown link,
pass-through. -/
def fmtStep (code_block : Bool) (line : List Char) : Bool × List Char :=
  let s := pstrip line
  if fenceMark.isPrefixOf s then
    let cb := !code_block
    if hasTag s then (cb, rewriteTags s) else (cb, line)
  else if s.isEmpty then (code_block, [])
  else if (ofStr "#").isPrefixOf s && !code_block then
    let level := (s.takeWhile (fun c => c == '#')).length
    (code_block, List.replicate (level + 1) '#' ++ ' ' :: pstrip (s.dropWhile (fun c => c == '#')))
  else if (ofStr "-").isPrefixOf s && !code_block then (code_block, line)
  else if (ofStr "*").isPrefixOf s && !code_block then (code_block, '-' :: s.drop 1)
  else if (ofStr "[").isPrefixOf s && s.contains ']' && s.contains '(' then (code_block, line)
  else (code_block, line)

/-- The line loop of `format_rustdoc_to_markdown`, threading the fence flag. -/
def fmtLines (b : Bool) : List (List Char) → List (List Char)
  | [] => []
  | l :: ls =>
    let st := fmtStep b l
    st.2 :: fmtLines st.1 ls

/-- `format_rustdoc_to_markdown` (the Stage-B markdown-shaping normalizer). -/
def format_rustdoc_to_markdown (s : List Char) : List Char :=
  if s.isEmpty then [] else joinNl (fmtLines false (splitNl s))

/-! ## Field parsing (lines 103-112)

The Python source applies `re.match(r"(\w+)\s*:\s*([^,]+)", line)` to each
stripped, non-`//` body line.  Deterministic equivalent: the anchored match
succeeds iff the line starts with a nonempty `\w` run, followed (after
whitespace) by `:`, followed by at least one character before the next `,`.
Backtracking notes: giving characters back from the greedy `\w+` or from the
`\s*` before `:` can never help (the next character is then a word character
resp. a whitespace character, and neither equals `:`).  After the colon,
`\s*[^,]+` together match exactly the maximal run of non-comma characters
(whitespace is itself non-comma, so `\s*` backtracks as needed), and since the
captured group 2 is that run minus some whitespace prefix and the code then
applies `.strip()`, the stored type text is `pstrip` of the whole run. -/

structure FieldRec where
  name : List Char
  type : List Char
deriving DecidableEq, Repr

/-- Semantics of `re.match(r"(\w+)\s*:\s*([^,]+)", line)` plus the
`.strip()` the source applies to the captured type. -/
def parseFieldLine (line : List Char) : Option FieldRec :=
  let (name, r0) := spanP isWord line
  if name.isEmpty then none
  else
    match r0.dropWhile isWS with
    | ':' :: r2 =>
      let run := (r2.takeWhile (fun c => c ≠ ','))
      if run.isEmpty then none else some ⟨name, pstrip run⟩
    | _ => none

/-- The field loop over a struct body: split on newlines, strip each line, skip
blank and `//` lines, silently skip lines the regex does not match. -/
def fieldsOfBody (body : List Char) : List FieldRec :=
  (splitNl body).filterMap (fun raw =>
    let line := pstrip raw
    if !line.isEmpty && !(ofStr "//").isPrefixOf line then parseFieldLine line
    else none)

/-! ## The extractor: `extract_from_file` (lines 82-160)

The Python source runs three `re.finditer` passes (structs, impls, functions)
plus one `re.findall` (module doc) over the file content.  Each is embedded as
a deterministic leftmost, non-overlapping scanner: `scanWith try` advances one
character at a time; when `try` succeeds it emits the captured record and
resumes at the match end, exactly like `finditer`.  Fuel is the length of the
scanned text (each step consumes at least one character). -/

/-- Leftmost non-overlapping scan: at each position try a match; on success
emit it and resume after the consumed text, otherwise advance one character. -/
def scanWith (f : List Char → Option (α × List Char)) : Nat → List Char → List α
  | 0, _ => []
  | _ + 1, [] => []
  | fuel + 1, c :: rest =>
    match f (c :: rest) with
    | some (a, r) => a :: scanWith f fuel r
    | none => scanWith f fuel rest

/-- The doc-block repetition `(?:///[^\n]*\n\s*)+` (at least one repetition):
returns the exact text consumed (the regex group includes the trailing
whitespace of each repetition) and the rest.  A repetition that begins with
`///` but reaches end-of-input before a newline fails; the regex then stops
before it — greedy repetition with no useful backtracking, because after
giving back a repetition the next character is `/`, which can match neither
the following `\s*` nor the literal that follows the group. -/
def docsReps : Nat → List Char → Option (List Char × List Char)
  | 0, _ => none
  | fuel + 1, s =>
    if (ofStr "///").isPrefixOf s then
      let (lineRest, after) := spanP (fun c => c ≠ '\n') (s.drop 3)
      match after with
      | '\n' :: tail =>
        let (ws, tail2) := spanP isWS tail
        let consumed := ofStr "///" ++ lineRest ++ '\n' :: ws
        match docsReps fuel tail2 with
        | some (d2, rest) => some (consumed ++ d2, rest)
        | none => some (consumed, tail2)
      | _ => none
    else none

/-- Zero-or-more variant, used where the pattern has `(?:///[^\n]*\n\s*)*`. -/
def docsOpt (fuel : Nat) (s : List Char) : List Char × List Char :=
  match docsReps fuel s with
  | some (d, r) => (d, r)
  | none => ([], s)

structure StructRec where
  name : List Char
  docs : List Char
  fields : List FieldRec
deriving DecidableEq, Repr

structure Callable where
  name : List Char
  docs : List Char
  params : List Char
  ret : List Char
deriving DecidableEq, Repr

/-- Match attempt for the struct pattern
`(?P<docs>(?:///[^\n]*\n\s*)+)\s*pub struct (?P<name>\w+)\s*\{(?P<body>[^}]*)\}`
at the current position (the `\s*` after the docs group always matches empty,
since the group's own trailing `\s*` is greedy).  `\w+` cannot usefully
backtrack: after giving back a word character, `\s*` must match empty and the
literal `\x7b` fails on that word character. -/
def tryStructAt (s : List Char) : Option (StructRec × List Char) :=
  match docsReps s.length s with
  | none => none
  | some (docs, r1) =>
    if (ofStr "pub struct ").isPrefixOf r1 then
      let r2 := r1.drop 11
      let (name, r3) := spanP isWord r2
      if name.isEmpty then none
      else
        match r3.dropWhile isWS with
        | '{' :: r4 =>
          let (body, r5) := spanP (fun c => c ≠ '}') r4
          match r5 with
          | '}' :: r6 => some (⟨name, clean_rustdoc docs, fieldsOfBody body⟩, r6)
          | _ => none
        | _ => none
    else none

/-- Match attempt for the method/function pattern (the same regex text is used
for both impl bodies and the whole file):
`(?P<docs>(?:///[^\n]*\n\s*)*)pub\s+(?:async\s+)?fn\s+(?P<name>\w+)\s*\((?P<params>[^)]*)\)\s*(?P<return>->\s*[^{;]*)?`.
The match ends after the return group when present (`[^{;]*` stops before the
first `\x7b` or `;`), otherwise after the `\s*` following the closing paren.
The source stores `params.strip()` and `(group("return") or "-> ()").strip()`. -/
def tryFnAt (s : List Char) : Option (Callable × List Char) :=
  let (docs, r1) := docsOpt s.length s
  if (ofStr "pub").isPrefixOf r1 then
    let (ws1, r2) := spanP isWS (r1.drop 3)
    if ws1.isEmpty then none
    else
      let r3 :=
        if (ofStr "async").isPrefixOf r2 then
          let (ws2, r2b) := spanP isWS (r2.drop 5)
          if ws2.isEmpty then none else some r2b
        else some r2
      match r3 with
      | none => none
      | some r4 =>
        if (ofStr "fn").isPrefixOf r4 then
          let (ws3, r5) := spanP isWS (r4.drop 2)
          if ws3.isEmpty then none
          else
            let (name, r6) := spanP isWord r5
            if name.isEmpty then none
            else
              match r6.dropWhile isWS with
              | '(' :: r7 =>
                let (params, r8) := spanP (fun c => c ≠ ')') r7
                match r8 with
                | ')' :: r9 =>
                  let r10 := r9.dropWhile isWS
                  if (ofStr "->").isPrefixOf r10 then
                    let (run, r11) := spanP (fun c => !(c == '{' || c == ';')) (r10.drop 2)
                    some (⟨name, clean_rustdoc docs, pstrip params,
                           pstrip (ofStr "->" ++ run)⟩, r11)
                  else
                    some (⟨name, clean_rustdoc docs, pstrip params, ofStr "-> ()"⟩, r10)
                | _ => none
              | _ => none
        else none
  else none

/-- Match attempt for the impl pattern
`(?P<docs>(?:///[^\n]*\n\s*)*)impl\s+\w+\s*\{(?P<body>[^}]*)\}`; the docs group
is captured but never read by the source, and the body is re-scanned with the
method pattern.  The emitted value is the method list of this impl block. -/
def tryImplAt (s : List Char) : Option (List Callable × List Char) :=
  let (_, r1) := docsOpt s.length s
  if (ofStr "impl").isPrefixOf r1 then
    let (ws1, r2) := spanP isWS (r1.drop 4)
    if ws1.isEmpty then none
    else
      let (tname, r3) := spanP isWord r2
      if tname.isEmpty then none
      else
        match r3.dropWhile isWS with
        | '{' :: r4 =>
          let (body, r5) := spanP (fun c => c ≠ '}') r4
          match r5 with
          | '}' :: r6 => some (scanWith tryFnAt body.length body, r6)
          | _ => none
        | _ => none
  else none

structure ExtractResult where
  module_doc : List Char
  structs : List StructRec
  impls : List Callable
  functions : List Callable
deriving DecidableEq, Repr

/-- The module-doc pass: `re.findall(r"^(//!.*(?:\n//!.*)*)", content, re.MULTILINE)`
captures the maximal blocks of consecutive lines starting with `//!`; joining
the blocks with `"\n"` is the same as joining all `//!`-lines in order, which
is how it is embedded here. -/
def moduleDocOf (content : List Char) : List Char :=
  clean_rustdoc (joinNl ((splitNl content).filter (fun l => (ofStr "//!").isPrefixOf l)))

/-- `extract_from_file` (on the file's text; reading the file is I/O, out of
scope).  A total function: malformed input only yields empty parts. -/
def extract_from_file (content : List Char) : ExtractResult :=
  { module_doc := moduleDocOf content
    structs := scanWith tryStructAt content.length content
    impls := (scanWith tryImplAt content.length content).flatten
    functions := scanWith tryFnAt content.length content }

/-- `scan_component` (lines 163-184): the component's `mod.rs` (when present)
contributes module doc and structs only; every other fragment contributes
impls and functions only.  Fragment file discovery is I/O; the fragment texts
are passed directly. -/
def scan_component (modFile : Option (List Char)) (others : List (List Char)) : ExtractResult :=
  let base : ExtractResult :=
    match modFile with
    | some c =>
      let d := extract_from_file c
      { module_doc := d.module_doc, structs := d.structs, impls := [], functions := [] }
    | none => { module_doc := [], structs := [], impls := [], functions := [] }
  others.foldl
    (fun acc c =>
      let d := extract_from_file c
      { acc with impls := acc.impls ++ d.impls, functions := acc.functions ++ d.functions })
    base

/-! ## The renderer: `generate_mdx_from_rustdata` (lines 187-273) -/

/-- The constructor-name test:
`any(c in f["name"].lower() for c in ["new", "create", "from"])`. -/
def isCtorName (f : Callable) : Bool :=
  let low := f.name.map Char.toLower
  containsSub (ofStr "new") low || containsSub (ofStr "create") low ||
    containsSub (ofStr "from") low

/-- The per-callable body rendered inside the Constructors / Functions /
Methods subsections; callables with empty docs render nothing (but the
subsection heading is emitted regardless, by the callers below). -/
def renderEntry (f : Callable) : List Char :=
  if f.docs.isEmpty then []
  else
    ofStr "### `" ++ f.name ++ ofStr "`\n\n" ++ f.docs ++
    ofStr "\n\n**Signature:**\n```rust\nfn " ++ f.name ++ ofStr "(" ++ f.params ++
    ofStr ") " ++ f.ret ++ ofStr "\n```\n\n"

/-- `constructors = [f for f in data["functions"] if any(...)]`. -/
def ctorFuncs (fns : List Callable) : List Callable := fns.filter isCtorName

/-- `other_funcs = [f for f in data["functions"] if f not in constructors]` —
the partition is by value-equality membership in the constructor list. -/
def otherFuncs (fns : List Callable) : List Callable :=
  fns.filter (fun f => decide (¬ f ∈ ctorFuncs fns))

/-- The "Constructors" block: heading emitted whenever the name-filtered list
is nonempty (`if constructors:`), entries only for documented callables. -/
def ctorSection (fns : List Callable) : List Char :=
  let ctors := ctorFuncs fns
  if ctors.isEmpty then []
  else ofStr "## Constructors\n\n" ++ (ctors.map renderEntry).flatten

/-- The "Functions" block (`if other_funcs:`). -/
def funcSection (fns : List Callable) : List Char :=
  let others := otherFuncs fns
  if others.isEmpty then []
  else ofStr "## Functions\n\n" ++ (others.map renderEntry).flatten

/-- The "Methods" block: heading emitted whenever the impl-extracted sequence
is nonempty (`if data["impls"]:`), entries only for documented callables. -/
def methodSection (impls : List Callable) : List Char :=
  if impls.isEmpty then []
  else ofStr "## Methods\n\n" ++ (impls.map renderEntry).flatten

/-- One "Struct:" subsection with its field table (Description column blank). -/
def structSection (st : StructRec) : List Char :=
  ofStr "## Struct: " ++ st.name ++ ofStr "\n\n" ++ st.docs ++
  ofStr "\n\n### Fields\n\n| Field | Type | Description |\n|-------|------|-------------|\n" ++
  (st.fields.map (fun f =>
    ofStr "| `" ++ f.name ++ ofStr "` | `" ++ f.type ++ ofStr "` | |\n")).flatten ++
  ofStr "\n"

/-- `generate_mdx_from_rustdata` (the `category` argument is accepted and
unused, exactly as in the source). -/
def generate_mdx_from_rustdata (name : List Char) (data : ExtractResult)
    (_category : List Char) : List Char :=
  ofStr "---\ntitle: " ++ name ++
  ofStr "\ndescription: Auto-generated documentation from rustdoc\n---\n\n# " ++ name ++
  ofStr "\n\n" ++ format_rustdoc_to_markdown data.module_doc ++ ofStr "\n\n" ++
  (data.structs.map structSection).flatten ++
  ctorSection data.functions ++ funcSection data.functions ++
  methodSection data.impls

/-- The scenario source of claim C1: a component whose only fragment is the
index file, holding one documented public struct with two fields and one
documented free public function named `new_widget`. -/
def c1content : List Char :=
  ofStr "//! M.\n/// D.\npub struct W \x7b\nw: u8,\nh: u8,\n\x7d\n/// C.\npub fn new_widget(a: u8) -> W;\n"

/-- The document rendered for the C1 scenario component. -/
def c1doc : List Char :=
  generate_mdx_from_rustdata (ofStr "W") (scan_component (some c1content) []) (ofStr "widgets")

/-- Modelled from the spec's words (§4.3 step 6): the non-constructor free
functions obtained by re-testing the name-substring predicate directly. -/
def specNonCtors (fns : List Callable) : List Callable :=
  fns.filter (fun f => !isCtorName f)

/-- The hypothesis class under which Stage B is idempotent: scanning the lines
with the fence flag, every fence line is free of the rewritable tags, and no
heading line (stripped line starting with `#`) occurs outside a fence. -/
def okLines : Bool → List (List Char) → Bool
  | _, [] => true
  | b, l :: ls =>
    let s := pstrip l
    if fenceMark.isPrefixOf s then !hasTag s && okLines (!b) ls
    else (b || !(ofStr "#").isPrefixOf s) && okLines b ls

/-- The tail of the C6 function item after its doc line: `pub fn <n>() -> u32;`
followed by `tail`. -/
def c6rest (n tail : List Char) : List Char :=
  ofStr "pub fn " ++ (n ++ (ofStr "() -> u32;" ++ tail))

def c6fn (d n tail : List Char) : List Char :=
  ofStr "/// " ++ (d ++ ('\n' :: c6rest n tail))

/-- The C6 scenario fragment: an `impl Widget` block holding one documented
public method, with the same bytes also visible to the free-function scan. -/
def c6content (d n : List Char) : List Char :=
  ofStr "impl Widget \x7b\n" ++ c6fn d n (ofStr "\n\x7d\n")

/-- A falsifying C6 fragment: an `impl` block with two documented public
methods where the first has a braced body.  The impl pattern's body group
`[^\x7d]*` stops at the first closing brace — the one ending `get_a`'s body —
so `get_b` is invisible to the method scan yet found by the file-wide
function scan. -/
def c6bad : List Char :=
  ofStr "impl W \x7b\n/// A.\npub fn get_a() \x7b \x7d\n/// B.\npub fn get_b();\n\x7d\n"

/-! ## Helper lemmas -/

theorem spanP_cons_true {p : Char → Bool} {c : Char} (l : List Char) (h : p c = true) :
    spanP p (c :: l) = ((c :: (spanP p l).1), (spanP p l).2) := by
  simp [spanP, h]

theorem spanP_cons_false {p : Char → Bool} {c : Char} (l : List Char) (h : p c = false) :
    spanP p (c :: l) = ([], c :: l) := by
  simp [spanP, h]

/-- `spanP` on `a ++ b` where all of `a` satisfies `p` and `b` starts with a
failing character (or is empty). -/
theorem spanP_append_all {p : Char → Bool} :
    ∀ (a : List Char) {b : List Char}, (∀ x ∈ a, p x = true) →
      (∀ c, b.head? = some c → p c = false) → spanP p (a ++ b) = (a, b)
  | [], b, _, hb => by
    cases b with
    | nil => simp [spanP]
    | cons c cs => simp [spanP_cons_false _ (hb c rfl)]
  | a :: as, b, ha, hb => by
    rw [List.cons_append, spanP_cons_true _ (ha a (List.mem_cons_self a as)),
      spanP_append_all as (fun x hx => ha x (List.mem_cons_of_mem a hx)) hb]

theorem takeWhile_append_all {p : Char → Bool} {a b : List Char}
    (ha : ∀ x ∈ a, p x = true) (hb : ∀ c, b.head? = some c → p c = false) :
    (a ++ b).takeWhile p = a := by
  induction a with
  | nil =>
    cases b with
    | nil => rfl
    | cons c cs => simp [List.takeWhile_cons, hb c rfl]
  | cons x xs ih =>
    rw [List.cons_append, List.takeWhile_cons,
      ha x (List.mem_cons_self x xs)]
    simp [ih (fun y hy => ha y (List.mem_cons_of_mem x hy))]

theorem dropWhile_append_all {p : Char → Bool} {a b : List Char}
    (ha : ∀ x ∈ a, p x = true) (hb : ∀ c, b.head? = some c → p c = false) :
    (a ++ b).dropWhile p = b := by
  induction a with
  | nil =>
    cases b with
    | nil => rfl
    | cons c cs => simp [List.dropWhile_cons, hb c rfl]
  | cons x xs ih =>
    rw [List.cons_append, List.dropWhile_cons,
      ha x (List.mem_cons_self x xs)]
    simp [ih (fun y hy => ha y (List.mem_cons_of_mem x hy))]

theorem isPrefixOf_self_append : ∀ (p t : List Char), p.isPrefixOf (p ++ t) = true
  | [], t => by simp [List.isPrefixOf]
  | c :: cs, t => by simp [List.isPrefixOf, isPrefixOf_self_append cs t]

theorem word_not_ws {c : Char} (h : isWord c = true) : isWS c = false := by
  cases hx : isWS c
  · rfl
  · exfalso
    simp only [isWS, Bool.or_eq_true, beq_iff_eq] at hx
    rcases hx with ((((h1 | h1) | h1) | h1) | h1) | h1 <;> subst h1 <;>
      exact absurd h (by decide)

theorem word_ne_colon {c : Char} (h : isWord c = true) : c ≠ ':' := by
  intro he; subst he; exact absurd h (by decide)

theorem splitNl_eq_single {l : List Char} (h : '\n' ∉ l) : splitNl l = [l] := by
  induction l with
  | nil => rfl
  | cons c cs ih =>
    have hc : ¬(c = '\n') := fun he => h (he ▸ List.mem_cons_self c cs)
    have ht : '\n' ∉ cs := fun hm => h (List.mem_cons_of_mem c hm)
    simp [splitNl, hc, ih ht]

theorem trimR_cons (c : Char) (l : List Char) :
    trimR (c :: l) =
      if (trimR l).isEmpty then (if isWS c then [] else [c]) else c :: trimR l := rfl

theorem trimR_cons_ne_nil {c : Char} (t : List Char) (h : isWS c = false) :
    trimR (c :: t) ≠ [] := by
  rw [trimR_cons]
  cases hr : (trimR t).isEmpty <;> simp [h]

theorem trimR_append_of_ne_nil : ∀ (a : List Char) {b : List Char},
    trimR b ≠ [] → trimR (a ++ b) = a ++ trimR b
  | [], _, _ => rfl
  | c :: as, b, hb => by
    have ih := trimR_append_of_ne_nil as hb
    have h2 : as ++ trimR b ≠ [] := fun he => hb (List.append_eq_nil.mp he).2
    have hne : (as ++ trimR b).isEmpty = false := by
      cases hq : as ++ trimR b with
      | nil => exact absurd hq h2
      | cons x xs => rfl
    rw [List.cons_append, trimR_cons, ih, hne]
    simp

/-! ## Claim C1 — end-to-end scenario with a single-fragment (mod.rs only) component -/

/-- Claim C1, counterexample: for the single-fragment scenario the claim asserts
a non-empty "Constructors" subsection containing `new_widget`; the rendered
document contains neither the word "Constructors" nor `new_widget` at all,
because `scan_component` takes only the module doc and the structs from the
index fragment and discards its functions. -/
theorem c1_counterexample :
    containsSub (ofStr "Constructors") c1doc = false ∧
      containsSub (ofStr "new_widget") c1doc = false := by
  constructor <;> decide

/-- Claim C1 as amended: the scenario document contains exactly one "Struct:"
subsection and no "Constructors", "Functions" or "Methods" subsections — the
index fragment contributes no callables. -/
theorem c1_amended :
    countSub (ofStr "Struct:") c1doc = 1 ∧
      containsSub (ofStr "Constructors") c1doc = false ∧
      containsSub (ofStr "Functions") c1doc = false ∧
      containsSub (ofStr "Methods") c1doc = false := by
  refine ⟨by decide, by decide, by decide, by decide⟩

/-! ## Claim C3 — Stage A prefix stripping -/

/-- Claim C3 (a code bug): the two-line example from the spec does hold
(`"//! a\n//! b"` normalizes to `"a\nb"`), but Stage A does *not* remove
exactly the marker: `line.lstrip("//! ")` strips the character set
`\x7b '/', '!', ' ' \x7d`, so on the line `"//! !a"` the content's leading `!` is
eaten as well and the code yields `"a"` where the claim (and the function's
own docstring, "removing //!, /// prefixes") requires `"!a"`. -/
theorem c3_lstrip_eats_content :
    clean_rustdoc (ofStr "//! a\n//! b") = ofStr "a\nb" ∧
      clean_rustdoc (ofStr "//! !a") = ofStr "a" ∧
      ofStr "a" ≠ ofStr "!a" := by
  refine ⟨by decide, by decide, by decide⟩

/-! ## Claim C5 — field parsing stops at the first comma, nested or not -/

/-- Claim C5, counterexample: for the body line `map: HashMap<String, u32>,`
the claim requires the type text up to the next *top-level* comma, i.e.
`HashMap<String, u32>`; the regex `[^,]+` stops at the *first* comma, nested
inside the generic brackets or not, and the extracted type is `HashMap<String`. -/
theorem c5_counterexample :
    parseFieldLine (ofStr "map: HashMap<String, u32>,") =
        some ⟨ofStr "map", ofStr "HashMap<String"⟩ ∧
      ofStr "HashMap<String" ≠ ofStr "HashMap<String, u32>" := by
  refine ⟨by decide, by decide⟩

/-- Claim C5 as amended: a matching field line yields the identifier before the
first colon as name, and as type the (stripped) text following the colon up to
the next comma at *any* nesting depth; lines that do not match yield no field
and no error (`parseFieldLine` is total with an `Option` result). -/
theorem c5_amended (n p post : List Char) (hn : n ≠ [])
    (hw : ∀ c ∈ n, isWord c = true) (hp : p ≠ []) (hc : ',' ∉ p) :
    parseFieldLine (n ++ ':' :: (p ++ ',' :: post)) = some ⟨n, pstrip p⟩ := by
  have hspan : spanP isWord (n ++ ':' :: (p ++ ',' :: post)) =
      (n, ':' :: (p ++ ',' :: post)) := by
    refine spanP_append_all n hw ?_
    intro c hcc
    cases hcc
    decide
  have hname : n.isEmpty = false := by
    cases n with
    | nil => exact absurd rfl hn
    | cons x xs => rfl
  have hdrop : (':' :: (p ++ ',' :: post)).dropWhile isWS = ':' :: (p ++ ',' :: post) := by
    rw [List.dropWhile_cons]
    simp [show isWS ':' = false by decide]
  have hrun : (p ++ ',' :: post).takeWhile (fun c => c ≠ ',') = p := by
    refine takeWhile_append_all ?_ ?_
    · intro x hx
      simp only [decide_eq_true_eq]
      exact fun he => hc (he ▸ hx)
    · intro c hcc
      cases hcc
      decide
  have hpe : p.isEmpty = false := by
    cases p with
    | nil => exact absurd rfl hp
    | cons x xs => rfl
  simp only [parseFieldLine, hspan, hname, Bool.false_eq_true, if_false, hdrop, hrun, hpe]

/-- Claim C5, witness. -/
theorem c5_witness :
    parseFieldLine (ofStr "map" ++ ':' :: (ofStr " Vec<(u8" ++ ',' :: ofStr " u8)>,")) =
      some ⟨ofStr "map", pstrip (ofStr " Vec<(u8")⟩ :=
  c5_amended (ofStr "map") (ofStr " Vec<(u8") (ofStr " u8)>,") (by decide)
    (by decide) (by decide) (by decide)

/-! ## Claim C10 — visibility-prefixed field lines are silently dropped -/

theorem parseFieldLine_pub_none (c : Char) (u : List Char) (hc : isWord c = true) :
    parseFieldLine (ofStr "pub " ++ c :: u) = none := by
  have e1 : (ofStr "pub " ++ c :: u) = 'p' :: 'u' :: 'b' :: ' ' :: c :: u := rfl
  have hspan : spanP isWord ('p' :: 'u' :: 'b' :: ' ' :: c :: u) =
      (['p', 'u', 'b'], ' ' :: c :: u) := by
    rw [spanP_cons_true _ (by decide), spanP_cons_true _ (by decide),
      spanP_cons_true _ (by decide), spanP_cons_false _ (by decide)]
  have hdrop : (' ' :: c :: u).dropWhile isWS = c :: u ++ ([] : List Char) := by
    rw [List.dropWhile_cons]
    simp [show isWS ' ' = true by decide, List.dropWhile_cons, word_not_ws hc]
  rw [e1]
  simp only [parseFieldLine, hspan, List.isEmpty_cons, Bool.false_eq_true, if_false, hdrop]
  have hcne : c ≠ ':' := word_ne_colon hc
  cases u with
  | nil => simp [hcne]
  | cons d ds => simp [hcne]

/-- Claim C10: a struct-body field line whose name is preceded by a visibility
keyword (`pub name: ...`) matches no field — `\w+` captures `pub`, the
following character is the name's first (word) character rather than a colon —
so the field is silently absent from the extracted field list (and hence from
the rendered field table, whose rows come from exactly that list). -/
theorem c10_pub_field_dropped (n t : List Char) (hn : n ≠ [])
    (hw : ∀ c ∈ n, isWord c = true) (ht : '\n' ∉ t) :
    parseFieldLine (ofStr "pub " ++ n ++ ':' :: t) = none ∧
      fieldsOfBody (ofStr "pub " ++ n ++ ':' :: t) = [] := by
  obtain ⟨c, n', rfl⟩ : ∃ c n', n = c :: n' := by
    cases n with
    | nil => exact absurd rfl hn
    | cons c n' => exact ⟨c, n', rfl⟩
  have hc : isWord c = true := hw c (List.mem_cons_self c n')
  have hparse : parseFieldLine (ofStr "pub " ++ c :: (n' ++ ':' :: t)) = none :=
    parseFieldLine_pub_none c (n' ++ ':' :: t) hc
  have e2 : ofStr "pub " ++ (c :: n') ++ ':' :: t = ofStr "pub " ++ c :: (n' ++ ':' :: t) := by
    simp
  refine ⟨by rw [e2]; exact hparse, ?_⟩
  -- the body is a single line: no newline occurs in it
  have hnl : '\n' ∉ ofStr "pub " ++ (c :: n') ++ ':' :: t := by
    intro hm
    rcases List.mem_append.mp hm with hm1 | hm2
    · rcases List.mem_append.mp hm1 with hm3 | hm4
      · exact absurd hm3 (by decide)
      · have := hw '\n' hm4
        exact absurd this (by decide)
    · rcases List.mem_cons.mp hm2 with he | hm5
      · exact absurd he (by decide)
      · exact ht hm5
  rw [fieldsOfBody, splitNl_eq_single hnl]
  -- strip the single line, show it still has the `pub `-prefixed shape
  have htrimR : trimR (':' :: t) ≠ [] := trimR_cons_ne_nil t (by decide)
  have hstrip : pstrip (ofStr "pub " ++ (c :: n') ++ ':' :: t) =
      ofStr "pub " ++ c :: (n' ++ trimR (':' :: t)) := by
    have hL : trimL (ofStr "pub " ++ (c :: n') ++ ':' :: t) =
        ofStr "pub " ++ (c :: n') ++ ':' :: t := by
      rw [show ofStr "pub " ++ (c :: n') ++ ':' :: t =
        'p' :: (ofStr "ub " ++ (c :: n') ++ ':' :: t) from rfl]
      simp [trimL, List.dropWhile_cons, show isWS 'p' = false by decide]
    rw [pstrip, hL, List.append_assoc, trimR_append_of_ne_nil _
      (by rw [trimR_append_of_ne_nil _ htrimR]; simp)]
    rw [trimR_append_of_ne_nil _ htrimR]
    simp
  simp only [List.filterMap, hstrip]
  have hline : parseFieldLine (ofStr "pub " ++ c :: (n' ++ trimR (':' :: t))) = none :=
    parseFieldLine_pub_none c _ hc
  simp [hline]

/-- Claim C10, witness. -/
theorem c10_witness :
    parseFieldLine (ofStr "pub " ++ ofStr "name" ++ ':' :: ofStr " Type,") = none ∧
      fieldsOfBody (ofStr "pub " ++ ofStr "name" ++ ':' :: ofStr " Type,") = [] :=
  c10_pub_field_dropped (ofStr "name") (ofStr " Type,") (by decide) (by decide) (by decide)

/-! ## Claim C9 — membership partition ≡ re-testing the name predicate -/

/-- Claim C9: partitioning the free-function sequence by value-equality
membership in the constructor list (as `other_funcs = [f for f in functions
if f not in constructors]` does) classifies every callable exactly as
re-testing the `new`/`create`/`from` substring predicate would: two
structurally equal callables share a name, hence share the predicate's value,
so even duplicated callables land on the same side. -/
theorem c9_partition_eq_predicate (fns : List Callable) :
    otherFuncs fns = specNonCtors fns := by
  rw [otherFuncs, specNonCtors]
  refine List.filter_congr ?_
  intro f hf
  by_cases hctor : isCtorName f = true
  · have hmem : f ∈ ctorFuncs fns := List.mem_filter.mpr ⟨hf, hctor⟩
    simp [hmem, hctor]
  · have hmem : f ∉ ctorFuncs fns := fun hm => hctor (List.mem_filter.mp hm).2
    simp [hmem, Bool.eq_false_iff.mpr hctor]

/-! ## Claim C2 — when the Constructors / Methods headings are emitted -/

/-- Claim C2, counterexample: a unit whose only free function is named
`new_x` with *empty* documentation.  The claim says the "Constructors"
subsection is emitted iff some constructor-named callable has non-empty
documentation; the code emits the heading on `if constructors:` alone, so the
rendered document contains "## Constructors" although no callable of the unit
has any documentation. -/
theorem c2_counterexample :
    containsSub (ofStr "## Constructors")
        (generate_mdx_from_rustdata (ofStr "X")
          { module_doc := [], structs := [],
            impls := [], functions := [⟨ofStr "new_x", [], [], ofStr "-> ()"⟩] }
          (ofStr "c")) = true ∧
      ∀ f ∈ [(⟨ofStr "new_x", [], [], ofStr "-> ()"⟩ : Callable)], f.docs = [] := by
  refine ⟨by decide, by decide⟩

/-- Claim C2 as amended: the "Constructors" subsection (with its heading) is
emitted iff at least one free-function callable has a constructor-matching
name — documentation is not consulted for the heading (only for the entries);
likewise "Methods" is emitted iff the capability-block sequence is nonempty,
documented or not. -/
theorem c2_amended (fns ms : List Callable) :
    (ctorSection fns = [] ↔ ctorFuncs fns = []) ∧
      (ctorSection fns = [] ∨
        (ofStr "## Constructors").isPrefixOf (ctorSection fns) = true) ∧
      (methodSection ms = [] ↔ ms = []) ∧
      (methodSection ms = [] ∨
        (ofStr "## Methods").isPrefixOf (methodSection ms) = true) := by
  refine ⟨⟨?_, ?_⟩, ?_, ⟨?_, ?_⟩, ?_⟩
  · intro h
    by_cases he : (ctorFuncs fns).isEmpty
    · exact List.isEmpty_iff.mp he
    · exfalso
      rw [ctorSection, if_neg he] at h
      exact absurd h (by simp [ofStr])
  · intro h
    rw [ctorSection, if_pos (by simp [h])]
  · by_cases he : (ctorFuncs fns).isEmpty
    · exact Or.inl (by rw [ctorSection, if_pos he])
    · refine Or.inr ?_
      rw [ctorSection, if_neg he,
        show (ofStr "## Constructors\n\n" : List Char) =
          ofStr "## Constructors" ++ ofStr "\n\n" by decide,
        List.append_assoc]
      exact isPrefixOf_self_append _ _
  · intro h
    by_cases he : ms.isEmpty
    · exact List.isEmpty_iff.mp he
    · exfalso
      rw [methodSection, if_neg he] at h
      exact absurd h (by simp [ofStr])
  · intro h
    rw [methodSection, if_pos (by simp [h])]
  · by_cases he : ms.isEmpty
    · exact Or.inl (by rw [methodSection, if_pos he])
    · refine Or.inr ?_
      rw [methodSection, if_neg he,
        show (ofStr "## Methods\n\n" : List Char) =
          ofStr "## Methods" ++ ofStr "\n\n" by decide,
        List.append_assoc]
      exact isPrefixOf_self_append _ _

/-! ## Claim C7 — fence-tag rewriting and fenced content -/

/-- Inside a code fence, every non-blank non-fence line passes through the
Stage-B loop unchanged and keeps the fence state. -/
theorem fmtStep_inFence (l : List Char) (h1 : pstrip l ≠ [])
    (h2 : fenceMark.isPrefixOf (pstrip l) = false) : fmtStep true l = (true, l) := by
  have h1' : (pstrip l).isEmpty = false := by
    cases hq : pstrip l with
    | nil => exact absurd hq h1
    | cons x xs => rfl
  simp only [fmtStep, h2, Bool.false_eq_true, if_false, h1', Bool.not_true,
    Bool.and_false]
  split <;> rfl

/-- A fenced region (non-blank, non-fence content lines) passes through
`fmtLines` untouched; the closing fence restores the outside state. -/
theorem fmtLines_fence_passthrough (rest : List (List Char)) :
    ∀ inner : List (List Char),
      (∀ l ∈ inner, pstrip l ≠ [] ∧ fenceMark.isPrefixOf (pstrip l) = false) →
      fmtLines true (inner ++ ofStr "```" :: rest) =
        inner ++ ofStr "```" :: fmtLines false rest
  | [], _ => by
    have hcl : fmtStep true (ofStr "```") = (false, ofStr "```") := by decide
    simp [fmtLines, hcl]
  | l :: ls, h => by
    have hstep : fmtStep true l = (true, l) :=
      fmtStep_inFence l (h l (List.mem_cons_self l ls)).1 (h l (List.mem_cons_self l ls)).2
    have ih := fmtLines_fence_passthrough rest ls
      (fun x hx => h x (List.mem_cons_of_mem l hx))
    simp only [List.cons_append, fmtLines, hstep]
    exact congrArg (l :: ·) ih

/-- Claim C7, counterexample: the claim says every content line strictly
between a fence opener and its closer is emitted unchanged regardless of its
leading characters; a whitespace-only line inside a fence is replaced by the
empty line (the blank-line normalization is applied before the fence state is
consulted), so `" "` is altered. -/
theorem c7_counterexample :
    fmtLines false [ofStr "```", ofStr " ", ofStr "```"] =
        [ofStr "```", [], ofStr "```"] ∧
      ofStr " " ≠ ([] : List Char) := by
  refine ⟨by decide, by decide⟩

/-- Claim C7 as amended: a fence opener tagged `rust,no_run` or `rust,ignore`
is rewritten to the bare `rust` tag, and every content line between the fences
that has at least one non-whitespace character is emitted unchanged regardless
of its leading characters (no extra `#`, no `*`→`-` rewrite); whitespace-only
lines inside fences are replaced by empty lines (shown by the counterexample). -/
theorem c7_amended (inner rest : List (List Char))
    (h : ∀ l ∈ inner, pstrip l ≠ [] ∧ fenceMark.isPrefixOf (pstrip l) = false) :
    fmtLines false (ofStr "```rust,no_run" :: (inner ++ ofStr "```" :: rest)) =
        ofStr "```rust" :: (inner ++ ofStr "```" :: fmtLines false rest) ∧
      fmtLines false (ofStr "```rust,ignore" :: (inner ++ ofStr "```" :: rest)) =
        ofStr "```rust" :: (inner ++ ofStr "```" :: fmtLines false rest) := by
  have hop1 : fmtStep false (ofStr "```rust,no_run") = (true, ofStr "```rust") := by decide
  have hop2 : fmtStep false (ofStr "```rust,ignore") = (true, ofStr "```rust") := by decide
  exact ⟨by simp only [fmtLines, hop1, fmtLines_fence_passthrough rest inner h],
    by simp only [fmtLines, hop2, fmtLines_fence_passthrough rest inner h]⟩

/-- Claim C7, witness: a heading-like and a star-like line inside the fence
survive unchanged, and both tagged openers are rewritten. -/
theorem c7_witness :
    fmtLines false (ofStr "```rust,no_run" :: ([ofStr "# h", ofStr "* x"] ++ ofStr "```" :: [])) =
        ofStr "```rust" :: ([ofStr "# h", ofStr "* x"] ++ ofStr "```" :: fmtLines false []) ∧
      fmtLines false (ofStr "```rust,ignore" :: ([ofStr "# h", ofStr "* x"] ++ ofStr "```" :: [])) =
        ofStr "```rust" :: ([ofStr "# h", ofStr "* x"] ++ ofStr "```" :: fmtLines false []) :=
  c7_amended [ofStr "# h", ofStr "* x"] [] (by decide)

/-! ## Claim C4 — idempotence of the Stage-B normalizer -/

theorem isPrefixOf_eq_false_of_head_ne {p s : List Char} (hp : p ≠ [])
    (h : p.head? ≠ s.head?) : p.isPrefixOf s = false := by
  cases p with
  | nil => exact absurd rfl hp
  | cons c p' =>
    cases s with
    | nil => rfl
    | cons d s' =>
      have hcd : c ≠ d := fun he => h (by rw [he]; rfl)
      simp [List.isPrefixOf, hcd]

theorem dropWhile_idem (p : Char → Bool) (l : List Char) :
    (l.dropWhile p).dropWhile p = l.dropWhile p := by
  induction l with
  | nil => rfl
  | cons c cs ih =>
    rw [List.dropWhile_cons]
    cases hc : p c with
    | true => simpa [hc] using ih
    | false => simp [List.dropWhile_cons, hc]

theorem trimR_trimR (l : List Char) : trimR (trimR l) = trimR l := by
  induction l with
  | nil => rfl
  | cons c cs ih =>
    rw [trimR_cons]
    cases hr : (trimR cs).isEmpty with
    | true =>
      cases hw : isWS c with
      | true => simp [trimR]
      | false => simp [trimR, hw]
    | false =>
      simp only [Bool.false_eq_true, if_false]
      rw [trimR_cons, ih, hr]
      simp

theorem trimR_sublist : ∀ l : List Char, List.Sublist (trimR l) l
  | [] => List.Sublist.refl []
  | c :: cs => by
    rw [trimR_cons]
    cases hr : (trimR cs).isEmpty with
    | true =>
      cases hw : isWS c with
      | true => simp
      | false =>
        simp only [if_true, hw, Bool.false_eq_true, if_false]
        exact (List.nil_sublist cs).cons₂ c
    | false =>
      simp only [Bool.false_eq_true, if_false]
      exact (trimR_sublist cs).cons₂ c

theorem trimL_cons_of_not_ws {c : Char} (l : List Char) (h : isWS c = false) :
    trimL (c :: l) = c :: l := by
  simp [trimL, List.dropWhile_cons, h]

theorem dropWhile_head_false {p : Char → Bool} :
    ∀ (l : List Char) {c cs}, l.dropWhile p = c :: cs → p c = false
  | [], _, _, h => by simp at h
  | x :: xs, c, cs, h => by
    rw [List.dropWhile_cons] at h
    by_cases hx : p x = true
    · rw [if_pos hx] at h
      exact dropWhile_head_false xs h
    · rw [if_neg hx] at h
      cases h
      exact Bool.eq_false_iff.mpr hx

theorem trimR_head : ∀ (c : Char) (cs : List Char),
    trimR (c :: cs) = [] ∨ ∃ ds, trimR (c :: cs) = c :: ds := by
  intro c cs
  rw [trimR_cons]
  cases hr : (trimR cs).isEmpty with
  | true =>
    cases hw : isWS c with
    | true => simp
    | false => right; exact ⟨[], by simp⟩
  | false => right; exact ⟨trimR cs, by simp⟩

theorem pstrip_idem (l : List Char) : pstrip (pstrip l) = pstrip l := by
  rw [pstrip, pstrip]
  have hL : trimL (trimR (trimL l)) = trimR (trimL l) := by
    cases hq : trimL l with
    | nil => rfl
    | cons c cs =>
      have hc : isWS c = false := dropWhile_head_false (p := isWS) l hq
      rcases trimR_head c cs with h0 | ⟨ds, hds⟩
      · rw [h0]; rfl
      · rw [hds]
        exact trimL_cons_of_not_ws ds hc
  rw [hL, trimR_trimR]

theorem trimR_fix_of_cons {c : Char} {u : List Char} (h : trimR (c :: u) = c :: u) :
    trimR u = u := by
  rw [trimR_cons] at h
  cases hr : (trimR u).isEmpty with
  | true =>
    rw [hr, if_pos rfl] at h
    cases hw : isWS c with
    | true => rw [hw] at h; simp at h
    | false =>
      rw [hw] at h
      simp only [Bool.false_eq_true, if_false] at h
      have hu : u = [] := by
        have := (List.cons.injEq c [] c u).mp h
        exact this.2.symm
      rw [hu]
      rw [hu] at hr
      exact List.isEmpty_iff.mp hr
  | false =>
    rw [hr] at h
    simp only [Bool.false_eq_true, if_false, List.cons.injEq, true_and] at h
    exact h

theorem trimR_cons_of_fix {c : Char} {u : List Char} (hu : trimR u = u)
    (hc : isWS c = false) : trimR (c :: u) = c :: u := by
  rw [trimR_cons, hu]
  cases u with
  | nil => simp [hc]
  | cons d ds => simp

/-- The Stage-B loop keeps the fence flag on non-fence lines and toggles it on
fence lines, matching the state threading of `okLines`. -/
theorem fmtStep_fst (b : Bool) (l : List Char) :
    (fmtStep b l).1 = if fenceMark.isPrefixOf (pstrip l) then !b else b := by
  cases hf : fenceMark.isPrefixOf (pstrip l) with
  | true =>
    simp only [fmtStep, hf, if_true]
    split <;> rfl
  | false =>
    simp only [fmtStep, hf, Bool.false_eq_true, if_false]
    split
    · rfl
    · split
      · rfl
      · split
        · rfl
        · split
          · rfl
          · split <;> rfl

/-- Reprocessing the output of one Stage-B step (under the `okLines` side
conditions for that line) is a no-op: the step is line-level idempotent. -/
theorem fmtStep_reprocess (b : Bool) (l : List Char)
    (htag : fenceMark.isPrefixOf (pstrip l) = true → hasTag (pstrip l) = false)
    (hhead : fenceMark.isPrefixOf (pstrip l) = false → b = false →
      (ofStr "#").isPrefixOf (pstrip l) = false) :
    fmtStep b (fmtStep b l).2 = fmtStep b l := by
  cases hf : fenceMark.isPrefixOf (pstrip l) with
  | true =>
    have hstep : fmtStep b l = (!b, l) := by
      simp only [fmtStep, hf, if_true, htag hf, Bool.false_eq_true, if_false]
    rw [hstep]
    exact hstep
  | false =>
    cases hs : (pstrip l).isEmpty with
    | true =>
      have hstep : fmtStep b l = (b, []) := by
        simp only [fmtStep, hf, Bool.false_eq_true, if_false, hs, if_true]
      rw [hstep]
      simp only [fmtStep]
      rfl
    | false =>
      have h1 : pstrip l ≠ [] := by
        intro he
        rw [he] at hs
        exact absurd hs (by decide)
      cases b with
      | true =>
        have hstep : fmtStep true l = (true, l) := fmtStep_inFence l h1 hf
        rw [hstep]
        exact hstep
      | false =>
        have hh : (ofStr "#").isPrefixOf (pstrip l) = false := hhead hf rfl
        cases hd : (ofStr "-").isPrefixOf (pstrip l) with
        | true =>
          have hstep : fmtStep false l = (false, l) := by
            simp only [fmtStep, hf, Bool.false_eq_true, if_false, hs, hh,
              Bool.not_false, Bool.and_true, hd, if_true]
          rw [hstep]
          exact hstep
        | false =>
          cases hstar : (ofStr "*").isPrefixOf (pstrip l) with
          | true =>
            obtain ⟨u, hu⟩ : ∃ u, pstrip l = '*' :: u := by
              cases hq : pstrip l with
              | nil => exact absurd hq h1
              | cons x xs =>
                rw [hq] at hstar
                have hx : x = '*' := by
                  have := hstar
                  simp [ofStr, List.isPrefixOf] at this
                  exact this.symm
                exact ⟨xs, by rw [hx]⟩
            have hstep : fmtStep false l = (false, '-' :: u) := by
              rw [hu] at hf hs hh hd hstar
              simp only [fmtStep, hu, hf, Bool.false_eq_true, if_false, hs, hh,
                Bool.not_false, Bool.and_true, hd, hstar, if_true]
              rfl
            rw [hstep]
            -- the rewritten list line is itself a fixed point of the step
            have hufix : trimR u = u := by
              have hfix : trimR (pstrip l) = pstrip l := by
                rw [pstrip, trimR_trimR]
              rw [hu] at hfix
              exact trimR_fix_of_cons hfix
            have hps : pstrip ('-' :: u) = '-' :: u := by
              rw [pstrip, trimL_cons_of_not_ws u (by decide),
                trimR_cons_of_fix hufix (by decide)]
            have hf2 : fenceMark.isPrefixOf ('-' :: u) = false := by
              refine isPrefixOf_eq_false_of_head_ne (by decide) ?_
              rw [List.head?_cons]
              decide
            have hh2 : (ofStr "#").isPrefixOf ('-' :: u) = false := by
              refine isPrefixOf_eq_false_of_head_ne (by decide) ?_
              rw [List.head?_cons]
              decide
            have hd2 : (ofStr "-").isPrefixOf ('-' :: u) = true := by
              simp [ofStr, List.isPrefixOf]
            simp only [fmtStep, hps, hf2, Bool.false_eq_true, if_false,
              List.isEmpty_cons, hh2, Bool.not_false, Bool.and_true, hd2, if_true]
          | false =>
            have hstep : fmtStep false l = (false, l) := by
              simp only [fmtStep, hf, Bool.false_eq_true, if_false, hs, hh,
                Bool.not_false, Bool.and_true, hd, hstar]
              split <;> rfl
            rw [hstep]
            exact hstep

theorem okLines_cons (b : Bool) (l : List Char) (ls : List (List Char)) :
    okLines b (l :: ls) =
      (if fenceMark.isPrefixOf (pstrip l) then !hasTag (pstrip l) && okLines (!b) ls
       else (b || !(ofStr "#").isPrefixOf (pstrip l)) && okLines b ls) := rfl

/-- Under `okLines`, rerunning the Stage-B line loop on its own output is a
no-op (the list-level idempotence core). -/
theorem fmtLines_reprocess : ∀ (ls : List (List Char)) (b : Bool),
    okLines b ls = true → fmtLines b (fmtLines b ls) = fmtLines b ls
  | [], _, _ => rfl
  | l :: ls, b, hok => by
    rw [okLines_cons] at hok
    cases hf : fenceMark.isPrefixOf (pstrip l) with
    | true =>
      rw [hf] at hok
      simp only [if_true] at hok
      obtain ⟨htag, hokt⟩ := Bool.and_eq_true_iff.mp hok
      have htag' : hasTag (pstrip l) = false := by
        cases hx : hasTag (pstrip l)
        · rfl
        · rw [hx] at htag
          exact absurd htag (by decide)
      have hrep := fmtStep_reprocess b l (fun _ => htag')
        (fun hff _ => by rw [hf] at hff; exact absurd hff (by decide))
      have hfst : (fmtStep b l).1 = !b := by
        rw [fmtStep_fst, hf]
        simp
      have ih := fmtLines_reprocess ls (!b) hokt
      simp only [fmtLines]
      rw [hrep, hfst, ih]
    | false =>
      rw [hf] at hok
      simp only [Bool.false_eq_true, if_false] at hok
      obtain ⟨hhead, hokt⟩ := Bool.and_eq_true_iff.mp hok
      have hhead' : b = false → (ofStr "#").isPrefixOf (pstrip l) = false := by
        intro hb
        rw [hb] at hhead
        simp only [Bool.false_or] at hhead
        cases hx : (ofStr "#").isPrefixOf (pstrip l)
        · rfl
        · rw [hx] at hhead
          exact absurd hhead (by decide)
      have hrep := fmtStep_reprocess b l
        (fun hft => by rw [hf] at hft; exact absurd hft (by decide))
        (fun _ => hhead')
      have hfst : (fmtStep b l).1 = b := by
        rw [fmtStep_fst, hf]
        simp
      have ih := fmtLines_reprocess ls b hokt
      simp only [fmtLines]
      rw [hrep, hfst, ih]

theorem splitNl_ne_nil : ∀ s : List Char, splitNl s ≠ []
  | [] => by simp [splitNl]
  | c :: rest => by
    rw [splitNl]
    by_cases hc : c = '\n'
    · simp [hc]
    · rw [if_neg hc]
      cases hsp : splitNl rest <;> simp

theorem splitNl_no_nl : ∀ (s : List Char), ∀ l ∈ splitNl s, '\n' ∉ l
  | [], l, hl => by
    simp [splitNl] at hl
    simp [hl]
  | c :: rest, l, hl => by
    rw [splitNl] at hl
    by_cases hc : c = '\n'
    · rw [if_pos hc] at hl
      rcases List.mem_cons.mp hl with h1 | h2
      · simp [h1]
      · exact splitNl_no_nl rest l h2
    · rw [if_neg hc] at hl
      cases hsp : splitNl rest with
      | nil => exact absurd hsp (splitNl_ne_nil rest)
      | cons h t =>
        rw [hsp] at hl
        rcases List.mem_cons.mp hl with h1 | h2
        · subst h1
          intro hm
          rcases List.mem_cons.mp hm with he | hm2
          · exact hc he.symm
          · exact splitNl_no_nl rest h (hsp ▸ List.mem_cons_self h t) hm2
        · exact splitNl_no_nl rest l (hsp ▸ List.mem_cons_of_mem h h2)

theorem pstrip_sublist (l : List Char) : List.Sublist (pstrip l) l :=
  (trimR_sublist (trimL l)).trans (List.dropWhile_sublist isWS)

/-- Under the `okLines` side conditions, one Stage-B step never introduces a
newline into its output line. -/
theorem fmtStep_snd_no_nl (b : Bool) (l : List Char) (hl : '\n' ∉ l)
    (htag : fenceMark.isPrefixOf (pstrip l) = true → hasTag (pstrip l) = false)
    (hhead : fenceMark.isPrefixOf (pstrip l) = false → b = false →
      (ofStr "#").isPrefixOf (pstrip l) = false) :
    '\n' ∉ (fmtStep b l).2 := by
  cases hf : fenceMark.isPrefixOf (pstrip l) with
  | true =>
    have hstep : fmtStep b l = (!b, l) := by
      simp only [fmtStep, hf, if_true, htag hf, Bool.false_eq_true, if_false]
    rw [hstep]
    exact hl
  | false =>
    cases hs : (pstrip l).isEmpty with
    | true =>
      have hstep : fmtStep b l = (b, []) := by
        simp only [fmtStep, hf, Bool.false_eq_true, if_false, hs, if_true]
      rw [hstep]
      simp
    | false =>
      have h1 : pstrip l ≠ [] := by
        intro he
        rw [he] at hs
        exact absurd hs (by decide)
      cases b with
      | true =>
        rw [fmtStep_inFence l h1 hf]
        exact hl
      | false =>
        have hh : (ofStr "#").isPrefixOf (pstrip l) = false := hhead hf rfl
        cases hd : (ofStr "-").isPrefixOf (pstrip l) with
        | true =>
          have hstep : fmtStep false l = (false, l) := by
            simp only [fmtStep, hf, Bool.false_eq_true, if_false, hs, hh,
              Bool.not_false, Bool.and_true, hd, if_true]
          rw [hstep]
          exact hl
        | false =>
          cases hstar : (ofStr "*").isPrefixOf (pstrip l) with
          | true =>
            obtain ⟨u, hu⟩ : ∃ u, pstrip l = '*' :: u := by
              cases hq : pstrip l with
              | nil => exact absurd hq h1
              | cons x xs =>
                rw [hq] at hstar
                have hx : x = '*' := by
                  have := hstar
                  simp [ofStr, List.isPrefixOf] at this
                  exact this.symm
                exact ⟨xs, by rw [hx]⟩
            have hstep : fmtStep false l = (false, '-' :: u) := by
              rw [hu] at hf hs hh hd hstar
              simp only [fmtStep, hu, hf, Bool.false_eq_true, if_false, hs, hh,
                Bool.not_false, Bool.and_true, hd, hstar, if_true]
              rfl
            rw [hstep]
            intro hm
            rcases List.mem_cons.mp hm with he | hm2
            · exact absurd he (by decide)
            · have hmp : '\n' ∈ pstrip l := by
                rw [hu]
                exact List.mem_cons_of_mem _ hm2
              exact hl ((pstrip_sublist l).subset hmp)
          | false =>
            have hstep : fmtStep false l = (false, l) := by
              simp only [fmtStep, hf, Bool.false_eq_true, if_false, hs, hh,
                Bool.not_false, Bool.and_true, hd, hstar]
              split <;> rfl
            rw [hstep]
            exact hl

/-- Under `okLines`, the Stage-B loop emits only newline-free lines when fed
newline-free lines (which is what `splitNl` produces). -/
theorem fmtLines_no_nl : ∀ (ls : List (List Char)) (b : Bool),
    okLines b ls = true → (∀ l ∈ ls, '\n' ∉ l) →
    ∀ o ∈ fmtLines b ls, '\n' ∉ o
  | [], _, _, _, o, ho => by simp [fmtLines] at ho
  | l :: ls, b, hok, hnl, o, ho => by
    rw [okLines_cons] at hok
    have hlnl : '\n' ∉ l := hnl l (List.mem_cons_self l ls)
    have htail : ∀ y ∈ ls, '\n' ∉ y := fun y hy => hnl y (List.mem_cons_of_mem l hy)
    cases hf : fenceMark.isPrefixOf (pstrip l) with
    | true =>
      rw [hf] at hok
      simp only [if_true] at hok
      obtain ⟨htag, hokt⟩ := Bool.and_eq_true_iff.mp hok
      have htag' : hasTag (pstrip l) = false := by
        cases hx : hasTag (pstrip l)
        · rfl
        · rw [hx] at htag
          exact absurd htag (by decide)
      have hfst : (fmtStep b l).1 = !b := by
        rw [fmtStep_fst, hf]
        simp
      simp only [fmtLines] at ho
      rcases List.mem_cons.mp ho with h1 | h2
      · subst h1
        exact fmtStep_snd_no_nl b l hlnl (fun _ => htag')
          (fun hff _ => by rw [hf] at hff; exact absurd hff (by decide))
      · rw [hfst] at h2
        exact fmtLines_no_nl ls (!b) hokt htail o h2
    | false =>
      rw [hf] at hok
      simp only [Bool.false_eq_true, if_false] at hok
      obtain ⟨hhead, hokt⟩ := Bool.and_eq_true_iff.mp hok
      have hhead' : b = false → (ofStr "#").isPrefixOf (pstrip l) = false := by
        intro hb
        rw [hb] at hhead
        simp only [Bool.false_or] at hhead
        cases hx : (ofStr "#").isPrefixOf (pstrip l)
        · rfl
        · rw [hx] at hhead
          exact absurd hhead (by decide)
      have hfst : (fmtStep b l).1 = b := by
        rw [fmtStep_fst, hf]
        simp
      simp only [fmtLines] at ho
      rcases List.mem_cons.mp ho with h1 | h2
      · subst h1
        exact fmtStep_snd_no_nl b l hlnl
          (fun hft => by rw [hf] at hft; exact absurd hft (by decide))
          (fun _ => hhead')
      · rw [hfst] at h2
        exact fmtLines_no_nl ls b hokt htail o h2

theorem splitNl_append_nl {l : List Char} (r : List Char) (h : '\n' ∉ l) :
    splitNl (l ++ '\n' :: r) = l :: splitNl r := by
  induction l with
  | nil => simp [splitNl]
  | cons c cs ih =>
    have hc : ¬(c = '\n') := fun he => h (he ▸ List.mem_cons_self c cs)
    have ht : '\n' ∉ cs := fun hm => h (List.mem_cons_of_mem c hm)
    rw [List.cons_append, splitNl, if_neg hc, ih ht]

theorem splitNl_joinNl : ∀ (ls : List (List Char)), ls ≠ [] →
    (∀ l ∈ ls, '\n' ∉ l) → splitNl (joinNl ls) = ls
  | [], h, _ => absurd rfl h
  | [l], _, hnl => by
    rw [joinNl]
    exact splitNl_eq_single (hnl l (List.mem_cons_self l []))
  | l :: l2 :: t, _, hnl => by
    rw [show joinNl (l :: l2 :: t) = l ++ '\n' :: joinNl (l2 :: t) from rfl,
      splitNl_append_nl _ (hnl l (List.mem_cons_self l _)),
      splitNl_joinNl (l2 :: t) (by simp)
        (fun y hy => hnl y (List.mem_cons_of_mem l hy))]

/-- Claim C4, counterexample: the claim asserts idempotence for every input
without doc-marker prefixes; the heading rule adds one `#` per pass, so on
`"# A"` (no doc markers) a second pass produces `"### A"` instead of `"## A"`. -/
theorem c4_counterexample :
    format_rustdoc_to_markdown (format_rustdoc_to_markdown (ofStr "# A")) ≠
        format_rustdoc_to_markdown (ofStr "# A") ∧
      format_rustdoc_to_markdown (ofStr "# A") = ofStr "## A" ∧
      format_rustdoc_to_markdown (ofStr "## A") = ofStr "### A" := by
  refine ⟨by decide, by decide, by decide⟩

/-- Claim C4 as amended: the Stage-B normalizer is idempotent on every input
whose lines, scanned with the fence flag, contain no heading line (stripped
line starting with `#`) outside a code fence and no fence line carrying the
rewritable tags `rust,no_run` / `rust,ignore` (on heading lines each pass adds
one `#`, and a fence tag like `rust,no_run,no_run` needs two passes to become
bare, so both exclusions are necessary). -/
theorem c4_amended (x : List Char) (h : okLines false (splitNl x) = true) :
    format_rustdoc_to_markdown (format_rustdoc_to_markdown x) =
      format_rustdoc_to_markdown x := by
  cases hx : x.isEmpty with
  | true =>
    have h1 : format_rustdoc_to_markdown x = [] := by
      rw [format_rustdoc_to_markdown, hx]
      simp
    rw [h1]
    rfl
  | false =>
    have hout : ∀ o ∈ fmtLines false (splitNl x), '\n' ∉ o :=
      fmtLines_no_nl (splitNl x) false h (splitNl_no_nl x)
    have hne : fmtLines false (splitNl x) ≠ [] := by
      cases hsp : splitNl x with
      | nil => exact absurd hsp (splitNl_ne_nil x)
      | cons a as => simp [fmtLines]
    have hfmt : format_rustdoc_to_markdown x = joinNl (fmtLines false (splitNl x)) := by
      rw [format_rustdoc_to_markdown, hx]
      simp
    rw [hfmt]
    cases hy : (joinNl (fmtLines false (splitNl x))).isEmpty with
    | true =>
      have h2 : format_rustdoc_to_markdown (joinNl (fmtLines false (splitNl x))) = [] := by
        rw [format_rustdoc_to_markdown, hy]
        simp
      rw [h2]
      exact (List.isEmpty_iff.mp hy).symm
    | false =>
      have h2 : format_rustdoc_to_markdown (joinNl (fmtLines false (splitNl x))) =
          joinNl (fmtLines false (splitNl (joinNl (fmtLines false (splitNl x))))) := by
        rw [format_rustdoc_to_markdown, hy]
        simp
      rw [h2, splitNl_joinNl _ hne hout, fmtLines_reprocess (splitNl x) false h]

/-- Claim C4, witness: a text with lists, a blank line and a fenced block
(with a heading inside the fence) satisfies the amended hypothesis and is a
fixed point of a second normalization. -/
theorem c4_witness :
    okLines false (splitNl (ofStr "* a\n\n- b\n```rust\n# inside\n```\ntext")) = true ∧
      format_rustdoc_to_markdown
          (format_rustdoc_to_markdown (ofStr "* a\n\n- b\n```rust\n# inside\n```\ntext")) =
        format_rustdoc_to_markdown (ofStr "* a\n\n- b\n```rust\n# inside\n```\ntext") :=
  ⟨by decide, c4_amended (ofStr "* a\n\n- b\n```rust\n# inside\n```\ntext") (by decide)⟩

/-! ## Claim C8 — totality of the extractor and absence-yields-empty -/

theorem spanP_eq (p : Char → Bool) : ∀ l : List Char,
    spanP p l = (l.takeWhile p, l.dropWhile p)
  | [] => rfl
  | c :: rest => by
    rw [spanP, List.takeWhile_cons, List.dropWhile_cons]
    cases hc : p c with
    | true => simp [spanP_eq p rest]
    | false => simp

theorem containsSub_iff_inf {sub l : List Char} :
    containsSub sub l = true ↔ sub <:+: l := by
  rw [containsSub, List.any_eq_true]
  constructor
  · rintro ⟨t, ht, hp⟩
    exact List.infix_iff_prefix_suffix.mpr
      ⟨t, List.isPrefixOf_iff_prefix.mp hp, (List.mem_tails t l).mp ht⟩
  · intro h
    obtain ⟨t, hp, hs⟩ := List.infix_iff_prefix_suffix.mp h
    exact ⟨t, (List.mem_tails t l).mpr hs, List.isPrefixOf_iff_prefix.mpr hp⟩

theorem docsReps_suffix : ∀ (fuel : Nat) (s d r : List Char),
    docsReps fuel s = some (d, r) → r <:+ s := by
  intro fuel
  induction fuel with
  | zero =>
    intro s d r h
    exact absurd h (by simp [docsReps])
  | succ n ih =>
    intro s d r h
    rw [docsReps] at h
    by_cases hp : (ofStr "///").isPrefixOf s = true
    · rw [if_pos hp, spanP_eq] at h
      simp only [] at h
      cases hafter : (s.drop 3).dropWhile (fun c => decide (c ≠ '\n')) with
      | nil =>
        rw [hafter] at h
        exact absurd h (by simp)
      | cons a tail =>
        rw [hafter] at h
        have htails : tail <:+ s := by
          have h1 : a :: tail <:+ s.drop 3 := hafter ▸ List.dropWhile_suffix _
          exact ((List.suffix_cons a tail).trans h1).trans (List.drop_suffix 3 s)
        split at h
        · rename_i after2 tail2 heq2
          injection heq2 with ha htt
          subst htt
          simp only [spanP_eq] at h
          cases hrec : docsReps n (tail.dropWhile isWS) with
          | none =>
            rw [hrec] at h
            simp only [Option.some.injEq, Prod.mk.injEq] at h
            rw [← h.2]
            exact (List.dropWhile_suffix isWS).trans htails
          | some pair =>
            rw [hrec] at h
            simp only [Option.some.injEq, Prod.mk.injEq] at h
            have := ih (tail.dropWhile isWS) pair.1 pair.2 (by rw [hrec])
            rw [← h.2]
            exact this.trans ((List.dropWhile_suffix isWS).trans htails)
        · exact absurd h (by simp)
    · rw [if_neg hp] at h
      exact absurd h (by simp)

theorem docsOpt_suffix (fuel : Nat) (s : List Char) : (docsOpt fuel s).2 <:+ s := by
  rw [docsOpt]
  cases hrec : docsReps fuel s with
  | none => exact List.suffix_refl s
  | some pair => exact docsReps_suffix fuel s pair.1 pair.2 (by rw [hrec])

theorem scanWith_none {α : Type} (f : List Char → Option (α × List Char)) :
    ∀ (fuel : Nat) (s : List Char), (∀ t, t <:+ s → t ≠ [] → f t = none) →
      scanWith f fuel s = []
  | 0, _, _ => rfl
  | _ + 1, [], _ => rfl
  | fuel + 1, c :: rest, h => by
    rw [scanWith, h (c :: rest) (List.suffix_refl _) (by simp)]
    exact scanWith_none f fuel rest
      (fun t ht hne => h t (ht.trans (List.suffix_cons c rest)) hne)

theorem tryStructAt_inf {t : List Char} {x : StructRec × List Char}
    (h : tryStructAt t = some x) : ofStr "pub struct " <:+: t := by
  rw [tryStructAt] at h
  cases hrec : docsReps t.length t with
  | none =>
    rw [hrec] at h
    exact absurd h (by simp)
  | some pair =>
    obtain ⟨d0, r1⟩ := pair
    rw [hrec] at h
    simp only [] at h
    by_cases hp : (ofStr "pub struct ").isPrefixOf r1 = true
    · exact List.infix_iff_prefix_suffix.mpr
        ⟨r1, List.isPrefixOf_iff_prefix.mp hp, docsReps_suffix _ _ _ _ hrec⟩
    · rw [if_neg hp] at h
      exact absurd h (by simp)

theorem tryFnAt_inf {t : List Char} {x : Callable × List Char}
    (h : tryFnAt t = some x) : ofStr "pub" <:+: t := by
  rw [tryFnAt] at h
  obtain ⟨d0, r1, heq⟩ : ∃ d0 r1, docsOpt t.length t = (d0, r1) := ⟨_, _, rfl⟩
  rw [heq] at h
  simp only [] at h
  by_cases hp : (ofStr "pub").isPrefixOf r1 = true
  · have hsuf : r1 <:+ t := by
      have := docsOpt_suffix t.length t
      rwa [heq] at this
    exact List.infix_iff_prefix_suffix.mpr ⟨r1, List.isPrefixOf_iff_prefix.mp hp, hsuf⟩
  · rw [if_neg hp] at h
    exact absurd h (by simp)

theorem tryImplAt_inf {t : List Char} {x : List Callable × List Char}
    (h : tryImplAt t = some x) : ofStr "impl" <:+: t := by
  rw [tryImplAt] at h
  obtain ⟨d0, r1, heq⟩ : ∃ d0 r1, docsOpt t.length t = (d0, r1) := ⟨_, _, rfl⟩
  rw [heq] at h
  simp only [] at h
  by_cases hp : (ofStr "impl").isPrefixOf r1 = true
  · have hsuf : r1 <:+ t := by
      have := docsOpt_suffix t.length t
      rwa [heq] at this
    exact List.infix_iff_prefix_suffix.mpr ⟨r1, List.isPrefixOf_iff_prefix.mp hp, hsuf⟩
  · rw [if_neg hp] at h
    exact absurd h (by simp)

theorem splitNl_head_prefix : ∀ (s : List Char) (h : List Char) (t : List (List Char)),
    splitNl s = h :: t → h <+: s
  | [], h, t, he => by
    rw [splitNl] at he
    injection he with h1 h2
    rw [← h1]
  | c :: rest, h, t, he => by
    rw [splitNl] at he
    by_cases hc : c = '\n'
    · rw [if_pos hc] at he
      injection he with h1 h2
      rw [← h1]
      exact List.nil_prefix
    · rw [if_neg hc] at he
      cases hsp : splitNl rest with
      | nil => exact absurd hsp (splitNl_ne_nil rest)
      | cons h' t' =>
        rw [hsp] at he
        injection he with h1 h2
        obtain ⟨u, hu⟩ := splitNl_head_prefix rest h' t' hsp
        exact ⟨u, by rw [← h1, List.cons_append, hu]⟩

theorem splitNl_inf : ∀ (s : List Char), ∀ l ∈ splitNl s, l <:+: s
  | [], l, hl => by
    rw [splitNl] at hl
    rcases List.mem_cons.mp hl with h1 | h2
    · rw [h1]
    · exact absurd h2 (by simp)
  | c :: rest, l, hl => by
    rw [splitNl] at hl
    by_cases hc : c = '\n'
    · rw [if_pos hc] at hl
      rcases List.mem_cons.mp hl with h1 | h2
      · rw [h1]
        exact List.nil_infix
      · exact List.infix_cons (splitNl_inf rest l h2)

    · rw [if_neg hc] at hl
      cases hsp : splitNl rest with
      | nil => exact absurd hsp (splitNl_ne_nil rest)
      | cons h' t' =>
        rw [hsp] at hl
        rcases List.mem_cons.mp hl with h1 | h2
        · subst h1
          obtain ⟨u, hu⟩ := splitNl_head_prefix rest h' t' hsp
          exact ⟨[], u, by simp [hu]⟩
        · refine List.infix_cons (splitNl_inf rest l ?_)
          rw [hsp]
          exact List.mem_cons_of_mem h' h2

/-- Claim C8: the extractor is a total function of the file text (it is a Lean
function, so termination and freedom from exceptions hold by construction),
and the absence of a sought pattern yields the empty string or sequence for
that part: no module marker means empty module doc, no `pub struct ` text
means no structs, no `impl` text means no impl callables, no `pub` text means
no free-function callables. -/
theorem c8_extract_never_fails (content : List Char) :
    (containsSub (ofStr "//!") content = false →
      (extract_from_file content).module_doc = []) ∧
    (containsSub (ofStr "pub struct ") content = false →
      (extract_from_file content).structs = []) ∧
    (containsSub (ofStr "impl") content = false →
      (extract_from_file content).impls = []) ∧
    (containsSub (ofStr "pub") content = false →
      (extract_from_file content).functions = []) := by
  refine ⟨?_, ?_, ?_, ?_⟩
  · intro hno
    show moduleDocOf content = []
    rw [moduleDocOf]
    have hfilter :
        (splitNl content).filter (fun l => (ofStr "//!").isPrefixOf l) = [] := by
      rw [List.filter_eq_nil_iff]
      intro a ha hpa
      have hinf : ofStr "//!" <:+: content :=
        (List.IsPrefix.isInfix (List.isPrefixOf_iff_prefix.mp hpa)).trans
          (splitNl_inf content a ha)
      rw [containsSub_iff_inf.mpr hinf] at hno
      exact absurd hno (by decide)
    rw [hfilter]
    rfl
  · intro hno
    show scanWith tryStructAt content.length content = []
    refine scanWith_none _ _ _ ?_
    intro t ht _
    cases hx : tryStructAt t with
    | none => rfl
    | some x =>
      have hinf : ofStr "pub struct " <:+: content :=
        (tryStructAt_inf hx).trans ht.isInfix
      rw [containsSub_iff_inf.mpr hinf] at hno
      exact absurd hno (by decide)
  · intro hno
    show (scanWith tryImplAt content.length content).flatten = []
    have hempty : scanWith tryImplAt content.length content = [] := by
      refine scanWith_none _ _ _ ?_
      intro t ht _
      cases hx : tryImplAt t with
      | none => rfl
      | some x =>
        have hinf : ofStr "impl" <:+: content := (tryImplAt_inf hx).trans ht.isInfix
        rw [containsSub_iff_inf.mpr hinf] at hno
        exact absurd hno (by decide)
    rw [hempty]
    rfl
  · intro hno
    show scanWith tryFnAt content.length content = []
    refine scanWith_none _ _ _ ?_
    intro t ht _
    cases hx : tryFnAt t with
    | none => rfl
    | some x =>
      have hinf : ofStr "pub" <:+: content := (tryFnAt_inf hx).trans ht.isInfix
      rw [containsSub_iff_inf.mpr hinf] at hno
      exact absurd hno (by decide)

/-- Claim C8, witness: a text containing none of the sought patterns extracts
to the all-empty record. -/
theorem c8_witness :
    (extract_from_file (ofStr "hello world")).module_doc = [] ∧
      (extract_from_file (ofStr "hello world")).structs = [] ∧
      (extract_from_file (ofStr "hello world")).impls = [] ∧
      (extract_from_file (ofStr "hello world")).functions = [] :=
  ⟨(c8_extract_never_fails (ofStr "hello world")).1 (by decide),
   (c8_extract_never_fails (ofStr "hello world")).2.1 (by decide),
   (c8_extract_never_fails (ofStr "hello world")).2.2.1 (by decide),
   (c8_extract_never_fails (ofStr "hello world")).2.2.2 (by decide)⟩

/-! ## Claim C6 — impl-block callables are extracted twice and rendered twice -/

theorem isPrefixOf_cons_cons (a b : Char) (as bs : List Char) :
    (a :: as).isPrefixOf (b :: bs) = (a == b && as.isPrefixOf bs) := rfl

theorem docsReps_none_of_not {s : List Char}
    (h : (ofStr "///").isPrefixOf s = false) : ∀ fuel, docsReps fuel s = none := by
  intro fuel
  cases fuel with
  | zero => rfl
  | succ k =>
    rw [docsReps, h]
    simp

theorem docsOpt_of_not {s : List Char} (fuel : Nat)
    (h : (ofStr "///").isPrefixOf s = false) : docsOpt fuel s = ([], s) := by
  rw [docsOpt, docsReps_none_of_not h fuel]

theorem tryFnAt_none_of (s : List Char)
    (h1 : (ofStr "///").isPrefixOf s = false)
    (h2 : (ofStr "pub").isPrefixOf s = false) : tryFnAt s = none := by
  rw [tryFnAt, docsOpt_of_not s.length h1]
  simp only [h2]
  simp

theorem tryImplAt_none_of (s : List Char)
    (h1 : (ofStr "///").isPrefixOf s = false)
    (h2 : (ofStr "impl").isPrefixOf s = false) : tryImplAt s = none := by
  rw [tryImplAt, docsOpt_of_not s.length h1]
  simp only [h2]
  simp

theorem tryFnAt_none_head (c : Char) (rest : List Char) (h1 : c ≠ '/') (h2 : c ≠ 'p') :
    tryFnAt (c :: rest) = none := by
  refine tryFnAt_none_of _ ?_ ?_
  · refine isPrefixOf_eq_false_of_head_ne (by decide) ?_
    rw [List.head?_cons]
    intro hx
    injection hx with hx2
    exact h1 hx2.symm
  · refine isPrefixOf_eq_false_of_head_ne (by decide) ?_
    rw [List.head?_cons]
    intro hx
    injection hx with hx2
    exact h2 hx2.symm

theorem tryImplAt_none_head (c : Char) (rest : List Char) (h1 : c ≠ '/') (h2 : c ≠ 'i') :
    tryImplAt (c :: rest) = none := by
  refine tryImplAt_none_of _ ?_ ?_
  · refine isPrefixOf_eq_false_of_head_ne (by decide) ?_
    rw [List.head?_cons]
    intro hx
    injection hx with hx2
    exact h1 hx2.symm
  · refine isPrefixOf_eq_false_of_head_ne (by decide) ?_
    rw [List.head?_cons]
    intro hx
    injection hx with hx2
    exact h2 hx2.symm

/-- Scanning a region in which no match can start just advances past it. -/
theorem scanWith_skip {α : Type} (f : List Char → Option (α × List Char)) :
    ∀ (seg rest : List Char) (fuel : Nat),
      (∀ t, t <:+ seg → t ≠ [] → f (t ++ rest) = none) →
      scanWith f (seg.length + fuel) (seg ++ rest) = scanWith f fuel rest
  | [], rest, fuel, _ => by simp
  | c :: seg, rest, fuel, h => by
    have e : (c :: seg).length + fuel = (seg.length + fuel) + 1 := by
      rw [List.length_cons]
      omega
    have hnone : f (c :: (seg ++ rest)) = none :=
      h (c :: seg) (List.suffix_refl _) (by simp)
    rw [e, List.cons_append, scanWith, hnone]
    exact scanWith_skip f seg rest fuel
      (fun t ht hne => h t (ht.trans (List.suffix_cons c seg)) hne)

theorem docsReps_c6 (fuel : Nat) (d n tail : List Char)
    (hd3 : ∀ c ∈ d, c ≠ '\n') :
    docsReps (fuel + 1) (c6fn d n tail) =
      some (ofStr "///" ++ ((' ' :: d) ++ '\n' :: ([] : List Char)), c6rest n tail) := by
  have hpre : (ofStr "///").isPrefixOf (c6fn d n tail) = true := by
    have e : c6fn d n tail = ofStr "///" ++ (' ' :: (d ++ ('\n' :: c6rest n tail))) := rfl
    rw [e]
    exact isPrefixOf_self_append _ _
  have e1 : (c6fn d n tail).drop 3 = (' ' :: d) ++ ('\n' :: c6rest n tail) := rfl
  have hspan1 : spanP (fun c => c ≠ '\n') ((' ' :: d) ++ ('\n' :: c6rest n tail)) =
      (' ' :: d, '\n' :: c6rest n tail) := by
    refine spanP_append_all _ ?_ ?_
    · intro x hx
      rcases List.mem_cons.mp hx with h1 | h2
      · rw [h1]; decide
      · simp [hd3 x h2]
    · intro c hc
      injection hc with hc2
      rw [← hc2]
      decide
  have hspan2 : spanP isWS (c6rest n tail) = ([], c6rest n tail) := by
    have e2 : c6rest n tail = 'p' :: (ofStr "ub fn " ++ (n ++ (ofStr "() -> u32;" ++ tail))) := rfl
    rw [e2, spanP_cons_false _ (by decide)]
  have hnone : docsReps fuel (c6rest n tail) = none := by
    refine docsReps_none_of_not ?_ fuel
    refine isPrefixOf_eq_false_of_head_ne (by decide) ?_
    have e2 : c6rest n tail = 'p' :: (ofStr "ub fn " ++ (n ++ (ofStr "() -> u32;" ++ tail))) := rfl
    rw [e2, List.head?_cons]
    decide
  rw [docsReps]
  rw [hpre]
  simp only [if_true]
  rw [e1, hspan1]
  simp only []
  rw [hspan2]
  simp only []
  rw [hnone]
  rfl

theorem contains_slashspace_false (c : Char) (h1 : c ≠ '/') (h2 : c ≠ ' ') :
    (ofStr "/// ").contains c = false := by
  cases hx : (ofStr "/// ").contains c
  · rfl
  · exfalso
    have hx2 : List.elem c (ofStr "/// ") = true := hx
    have hm : c ∈ ofStr "/// " := List.elem_iff.mp hx2
    simp [ofStr] at hm
    rcases hm with h | h
    · exact h1 h
    · exact h2 h

theorem pstrip_fix_parts {d : List Char} (h : pstrip d = d) :
    trimL d = d ∧ trimR d = d := by
  have h1 : List.Sublist (trimL d) d := List.dropWhile_sublist isWS
  have h2 : List.Sublist (trimR (trimL d)) (trimL d) := trimR_sublist (trimL d)
  have hlen : (trimR (trimL d)).length = d.length := by
    rw [pstrip] at h
    rw [h]
  have hle1 : (trimR (trimL d)).length ≤ (trimL d).length := h2.length_le
  have hle2 : (trimL d).length ≤ d.length := h1.length_le
  have heq : (trimL d).length = d.length := by omega
  have hL : trimL d = d := h1.eq_of_length heq
  refine ⟨hL, ?_⟩
  have h3 := h
  rw [pstrip, hL] at h3
  exact h3

theorem head_not_ws_of_pstrip_fix {c : Char} {d' : List Char}
    (h : pstrip (c :: d') = c :: d') : isWS c = false := by
  have hL : trimL (c :: d') = c :: d' := (pstrip_fix_parts h).1
  cases hx : isWS c
  · rfl
  · exfalso
    rw [trimL, List.dropWhile_cons, hx, if_pos rfl] at hL
    have hs : List.Sublist (List.dropWhile isWS d') d' := List.dropWhile_sublist isWS
    rw [hL] at hs
    have := hs.length_le
    simp at this

theorem cleanLine_c6 (d : List Char) (hd1 : d ≠ []) (hd2 : pstrip d = d)
    (hd3 : ∀ c ∈ d, c ≠ '/') :
    cleanLine (ofStr "/// " ++ d) = d := by
  obtain ⟨dc, d', rfl⟩ : ∃ dc d', d = dc :: d' := by
    cases d with
    | nil => exact absurd rfl hd1
    | cons dc d' => exact ⟨dc, d', rfl⟩
  have hdw : isWS dc = false := head_not_ws_of_pstrip_fix hd2
  have hdr : trimR (dc :: d') = dc :: d' := (pstrip_fix_parts hd2).2
  have hps : pstrip (ofStr "/// " ++ dc :: d') = ofStr "/// " ++ dc :: d' := by
    rw [pstrip,
      show trimL (ofStr "/// " ++ dc :: d') = '/' :: (ofStr "// " ++ dc :: d') from
        trimL_cons_of_not_ws _ (by decide),
      show ('/' : Char) :: (ofStr "// " ++ dc :: d') = ofStr "/// " ++ dc :: d' from rfl,
      trimR_append_of_ne_nil (ofStr "/// ") (by rw [hdr]; simp), hdr]
  have hne3 : (('!' : Char) :: []).isPrefixOf ('/' :: (' ' :: (dc :: d'))) = false :=
    isPrefixOf_eq_false_of_head_ne (by decide)
      (by rw [List.head?_cons, List.head?_cons]; decide)
  have hb1 : (ofStr "//!").isPrefixOf (ofStr "/// " ++ dc :: d') = false := by
    rw [show (ofStr "//!" : List Char) = '/' :: ('/' :: ['!']) from rfl,
      show ofStr "/// " ++ dc :: d' = '/' :: ('/' :: ('/' :: (' ' :: (dc :: d')))) from rfl,
      isPrefixOf_cons_cons, isPrefixOf_cons_cons, hne3]
    simp
  have hb2 : (ofStr "///").isPrefixOf (ofStr "/// " ++ dc :: d') = true := by
    rw [show ofStr "/// " ++ dc :: d' = ofStr "///" ++ (' ' :: (dc :: d')) from rfl]
    exact isPrefixOf_self_append _ _
  have hlstrip : lstripSet (ofStr "/// ") (ofStr "/// " ++ dc :: d') = dc :: d' := by
    rw [lstripSet,
      show ofStr "/// " ++ dc :: d' = '/' :: ('/' :: ('/' :: (' ' :: (dc :: d')))) from rfl]
    rw [List.dropWhile_cons, if_pos (by decide), List.dropWhile_cons, if_pos (by decide),
      List.dropWhile_cons, if_pos (by decide), List.dropWhile_cons, if_pos (by decide),
      List.dropWhile_cons]
    rw [contains_slashspace_false dc (hd3 dc (List.mem_cons_self dc d'))
      (fun he => by rw [he] at hdw; exact absurd hdw (by decide))]
    simp
  rw [cleanLine, hps, hb1]
  simp only [Bool.false_eq_true, if_false]
  rw [hb2]
  simp only [if_true]
  rw [hlstrip, hd2]

theorem clean_rustdoc_c6 (d : List Char) (hd1 : d ≠ []) (hd2 : pstrip d = d)
    (hd3 : ∀ c ∈ d, c ≠ '\n' ∧ c ≠ '/') :
    clean_rustdoc (ofStr "///" ++ ((' ' :: d) ++ '\n' :: ([] : List Char))) = d := by
  have e : (ofStr "///" ++ ((' ' :: d) ++ '\n' :: ([] : List Char)))
      = (ofStr "/// " ++ d) ++ ('\n' :: []) := rfl
  have hnl : '\n' ∉ ofStr "/// " ++ d := by
    intro hm
    rcases List.mem_append.mp hm with h1 | h2
    · exact absurd h1 (by decide)
    · exact (hd3 '\n' h2).1 rfl
  rw [e, clean_rustdoc,
    show ((ofStr "/// " ++ d) ++ ('\n' :: [])).isEmpty = false from rfl]
  simp only [Bool.false_eq_true, if_false]
  rw [splitNl_append_nl _ hnl,
    show splitNl ([] : List Char) = [[]] from rfl,
    List.map_cons, List.map_cons, List.map_nil,
    cleanLine_c6 d hd1 hd2 (fun c hc => (hd3 c hc).2),
    show cleanLine ([] : List Char) = [] from rfl]
  obtain ⟨dc, d', rfl⟩ : ∃ dc d', d = dc :: d' := by
    cases d with
    | nil => exact absurd rfl hd1
    | cons dc d' => exact ⟨dc, d', rfl⟩
  simp [List.filter, joinNl]

theorem tryFnAt_c6 (d n tail : List Char)
    (hd1 : d ≠ []) (hd2 : pstrip d = d)
    (hd3 : ∀ c ∈ d, c ≠ '\n' ∧ c ≠ '/')
    (hn1 : n ≠ []) (hn2 : ∀ c ∈ n, isWord c = true) :
    tryFnAt (c6fn d n tail) = some (⟨n, d, [], ofStr "-> u32"⟩, ';' :: tail) := by
  obtain ⟨nc, n', rfl⟩ : ∃ nc n', n = nc :: n' := by
    cases n with
    | nil => exact absurd rfl hn1
    | cons nc n' => exact ⟨nc, n', rfl⟩
  have hncw : isWord nc = true := hn2 nc (List.mem_cons_self nc n')
  have hopt : docsOpt (c6fn d (nc :: n') tail).length (c6fn d (nc :: n') tail) =
      (ofStr "///" ++ ((' ' :: d) ++ '\n' :: ([] : List Char)), c6rest (nc :: n') tail) := by
    rw [docsOpt,
      show (c6fn d (nc :: n') tail).length =
        (ofStr "// " ++ (d ++ ('\n' :: c6rest (nc :: n') tail))).length + 1 from rfl,
      docsReps_c6 _ d (nc :: n') tail (fun c hc => (hd3 c hc).1)]
  rw [tryFnAt, hopt]
  simp only []
  have hpub : (ofStr "pub").isPrefixOf (c6rest (nc :: n') tail) = true := by
    rw [show c6rest (nc :: n') tail =
      ofStr "pub" ++
        (' ' :: ('f' :: ('n' :: (' ' ::
          ((nc :: n') ++ (ofStr "() -> u32;" ++ tail)))))) from rfl]
    exact isPrefixOf_self_append _ _
  rw [hpub]
  simp only [if_true]
  rw [show (c6rest (nc :: n') tail).drop 3 =
    ' ' :: ('f' :: ('n' :: (' ' ::
      ((nc :: n') ++ (ofStr "() -> u32;" ++ tail))))) from rfl]
  rw [spanP_cons_true _ (by decide), spanP_cons_false _ (by decide)]
  simp only []
  have hasync : (ofStr "async").isPrefixOf
      ('f' :: ('n' :: (' ' :: ((nc :: n') ++ (ofStr "() -> u32;" ++ tail))))) = false :=
    isPrefixOf_eq_false_of_head_ne (by decide) (by rw [List.head?_cons]; decide)
  rw [hasync]
  simp only [Bool.false_eq_true, if_false]
  have hfn : (ofStr "fn").isPrefixOf
      ('f' :: ('n' :: (' ' :: ((nc :: n') ++ (ofStr "() -> u32;" ++ tail))))) = true := by
    rw [show ('f' :: ('n' :: (' ' :: ((nc :: n') ++ (ofStr "() -> u32;" ++ tail))))) =
      ofStr "fn" ++ (' ' :: ((nc :: n') ++ (ofStr "() -> u32;" ++ tail))) from rfl]
    exact isPrefixOf_self_append _ _
  rw [hfn]
  simp only [if_true]
  rw [show ('f' :: ('n' :: (' ' :: ((nc :: n') ++ (ofStr "() -> u32;" ++ tail))))).drop 2 =
    ' ' :: ((nc :: n') ++ (ofStr "() -> u32;" ++ tail)) from rfl]
  rw [spanP_cons_true _ (by decide), List.cons_append,
    spanP_cons_false _ (word_not_ws hncw)]
  simp only []
  have hspanw : spanP isWord (nc :: (n' ++ (ofStr "() -> u32;" ++ tail))) =
      (nc :: n', ofStr "() -> u32;" ++ tail) := by
    have h0 := spanP_append_all (p := isWord) (nc :: n')
      (b := ofStr "() -> u32;" ++ tail) hn2
      (by
        intro c hc
        injection hc with hc2
        rw [← hc2]
        decide)
    rwa [List.cons_append] at h0
  rw [hspanw]
  simp only []
  rw [show (ofStr "() -> u32;" ++ tail).dropWhile isWS = ofStr "() -> u32;" ++ tail by
    rw [show (ofStr "() -> u32;" ++ tail : List Char) =
      '(' :: (ofStr ") -> u32;" ++ tail) from rfl, List.dropWhile_cons]
    simp [show isWS '(' = false from by decide]]
  rw [show (ofStr "() -> u32;" ++ tail : List Char) =
    '(' :: (ofStr ") -> u32;" ++ tail) from rfl]
  simp only []
  rw [show (ofStr ") -> u32;" ++ tail : List Char) =
    ')' :: (ofStr " -> u32;" ++ tail) from rfl,
    spanP_cons_false _ (by decide)]
  simp only []
  rw [show (ofStr " -> u32;" ++ tail : List Char) =
    ' ' :: ('-' :: (ofStr "> u32;" ++ tail)) from rfl,
    List.dropWhile_cons]
  simp only [show isWS ' ' = true from rfl, if_true]
  rw [List.dropWhile_cons]
  simp only [show isWS '-' = false from by decide, Bool.false_eq_true, if_false]
  have harrow : (ofStr "->").isPrefixOf ('-' :: (ofStr "> u32;" ++ tail)) = true := by
    rw [show ('-' :: (ofStr "> u32;" ++ tail) : List Char) =
      ofStr "->" ++ (ofStr " u32;" ++ tail) from rfl]
    exact isPrefixOf_self_append _ _
  rw [harrow]
  simp only [if_true]
  rw [show ('-' :: (ofStr "> u32;" ++ tail) : List Char).drop 2 =
    ofStr " u32" ++ (';' :: tail) from rfl]
  rw [spanP_append_all (ofStr " u32") (by decide)
    (by
      intro c hc
      injection hc with hc2
      rw [← hc2]
      decide)]
  simp only []
  rw [clean_rustdoc_c6 d hd1 hd2 hd3]
  rw [show pstrip ([] : List Char) = [] from rfl,
    show pstrip (ofStr "->" ++ ofStr " u32") = ofStr "-> u32" from by decide]
  simp

theorem methods_c6 (d n : List Char)
    (hd1 : d ≠ []) (hd2 : pstrip d = d)
    (hd3 : ∀ c ∈ d, c ≠ '\n' ∧ c ≠ '/')
    (hn1 : n ≠ []) (hn2 : ∀ c ∈ n, isWord c = true) :
    scanWith tryFnAt ('\n' :: c6fn d n (ofStr "\n")).length ('\n' :: c6fn d n (ofStr "\n")) =
      [⟨n, d, [], ofStr "-> u32"⟩] := by
  have hsuf : ∀ t, t <:+ (';' :: ofStr "\n") → t ≠ [] → tryFnAt t = none := by
    intro t ht hne
    have htm : t ∈ (';' :: ofStr "\n").tails := (List.mem_tails t _).mpr ht
    rw [show ((';' :: ofStr "\n").tails) = [ofStr ";\n", ofStr "\n", []] from by decide] at htm
    fin_cases htm
    · decide
    · decide
    · decide
  have hfn2 : tryFnAt ('/' :: (ofStr "// " ++ (d ++ ('\n' :: c6rest n (ofStr "\n"))))) =
      some (⟨n, d, [], ofStr "-> u32"⟩, ';' :: ofStr "\n") :=
    tryFnAt_c6 d n (ofStr "\n") hd1 hd2 hd3 hn1 hn2
  rw [List.length_cons, scanWith, tryFnAt_none_head '\n' _ (by decide) (by decide),
    show c6fn d n (ofStr "\n") =
      '/' :: (ofStr "// " ++ (d ++ ('\n' :: c6rest n (ofStr "\n")))) from rfl,
    List.length_cons, scanWith, hfn2]
  simp only []
  rw [scanWith_none tryFnAt _ _ hsuf]

theorem tryImplAt_c6 (d n : List Char)
    (hd1 : d ≠ []) (hd2 : pstrip d = d)
    (hd3 : ∀ c ∈ d, c ≠ '\n' ∧ c ≠ '/' ∧ c ≠ '}')
    (hn1 : n ≠ []) (hn2 : ∀ c ∈ n, isWord c = true) :
    tryImplAt (c6content d n) =
      some ([⟨n, d, [], ofStr "-> u32"⟩], '\n' :: ([] : List Char)) := by
  have hnotdocs : (ofStr "///").isPrefixOf (c6content d n) = false := by
    refine isPrefixOf_eq_false_of_head_ne (by decide) ?_
    rw [show c6content d n =
      'i' :: (ofStr "mpl Widget \x7b\n" ++ c6fn d n (ofStr "\n\x7d\n")) from rfl,
      List.head?_cons]
    decide
  have himpl : (ofStr "impl").isPrefixOf (c6content d n) = true := by
    rw [show c6content d n =
      ofStr "impl" ++ (' ' :: (ofStr "Widget \x7b\n" ++ c6fn d n (ofStr "\n\x7d\n"))) from rfl]
    exact isPrefixOf_self_append _ _
  have hspanw : spanP isWord
      ('W' :: (ofStr "idget \x7b\n" ++ c6fn d n (ofStr "\n\x7d\n"))) =
      (ofStr "Widget", ' ' :: (ofStr "\x7b\n" ++ c6fn d n (ofStr "\n\x7d\n"))) := by
    have h0 := spanP_append_all (p := isWord) (ofStr "Widget")
      (b := ' ' :: (ofStr "\x7b\n" ++ c6fn d n (ofStr "\n\x7d\n")))
      (by decide)
      (by
        intro c hc
        injection hc with hc2
        rw [← hc2]
        decide)
    rwa [show (ofStr "Widget" ++ (' ' :: (ofStr "\x7b\n" ++ c6fn d n (ofStr "\n\x7d\n")))
      : List Char) = 'W' :: (ofStr "idget \x7b\n" ++ c6fn d n (ofStr "\n\x7d\n")) from rfl] at h0
  have hspanbody : spanP (fun c => c ≠ '}')
      ('\n' :: (c6fn d n (ofStr "\n\x7d\n"))) =
      ('\n' :: c6fn d n (ofStr "\n"), '}' :: ('\n' :: ([] : List Char))) := by
    have h0 := spanP_append_all (p := fun c => c ≠ '}')
      ('\n' :: c6fn d n (ofStr "\n"))
      (b := '}' :: ('\n' :: ([] : List Char)))
      (by
        intro x hx
        simp only [decide_eq_true_eq]
        intro he
        subst he
        rcases List.mem_cons.mp hx with h1 | h2
        · exact absurd h1 (by decide)
        rcases List.mem_append.mp h2 with h3 | h4
        · exact absurd h3 (by decide)
        rcases List.mem_append.mp h4 with h5 | h6
        · exact (hd3 '}' h5).2.2 rfl
        rcases List.mem_cons.mp h6 with h7 | h8
        · exact absurd h7 (by decide)
        rcases List.mem_append.mp h8 with h9 | h10
        · exact absurd h9 (by decide)
        rcases List.mem_append.mp h10 with h11 | h12
        · exact absurd (hn2 '}' h11) (by decide)
        · exact absurd h12 (by decide))
      (by
        intro c hc
        injection hc with hc2
        rw [← hc2]
        decide)
    have happ : c6fn d n (ofStr "\n") ++ ('}' :: ('\n' :: ([] : List Char))) =
        c6fn d n (ofStr "\n\x7d\n") := by
      rw [c6fn, c6fn, c6rest, c6rest]
      simp only [List.append_assoc, List.cons_append]
      rfl
    rwa [List.cons_append, happ] at h0
  rw [tryImplAt, docsOpt_of_not _ hnotdocs]
  simp only []
  rw [himpl]
  simp only [if_true]
  rw [show (c6content d n).drop 4 =
    ' ' :: ('W' :: (ofStr "idget \x7b\n" ++ c6fn d n (ofStr "\n\x7d\n"))) from rfl,
    spanP_cons_true _ (by decide), spanP_cons_false _ (by decide)]
  simp only []
  rw [hspanw]
  simp only []
  rw [show (' ' :: (ofStr "\x7b\n" ++ c6fn d n (ofStr "\n\x7d\n"))).dropWhile isWS =
      '{' :: ('\n' :: (c6fn d n (ofStr "\n\x7d\n"))) from by
    rw [List.dropWhile_cons]
    simp only [show isWS ' ' = true from rfl, if_true]
    rw [show (ofStr "\x7b\n" ++ c6fn d n (ofStr "\n\x7d\n") : List Char) =
      '{' :: ('\n' :: (c6fn d n (ofStr "\n\x7d\n"))) from rfl, List.dropWhile_cons]
    simp [show isWS '{' = false from by decide]]
  simp only []
  rw [hspanbody]
  simp only []
  rw [methods_c6 d n hd1 hd2 (fun c hc => ⟨(hd3 c hc).1, (hd3 c hc).2.1⟩) hn1 hn2]
  simp only [show ([' '] : List Char).isEmpty = false from rfl,
    show (ofStr "Widget").isEmpty = false from rfl, Bool.false_eq_true, if_false]

theorem tryFnAt_none_pl (rest : List Char) : tryFnAt ('p' :: ('l' :: rest)) = none := by
  have hub : (('u' : Char) :: ['b']).isPrefixOf ('l' :: rest) = false := by
    refine isPrefixOf_eq_false_of_head_ne (by decide) ?_
    rw [List.head?_cons, List.head?_cons]
    decide
  refine tryFnAt_none_of _ ?_ ?_
  · exact isPrefixOf_eq_false_of_head_ne (by decide) (by rw [List.head?_cons]; decide)
  · rw [show (ofStr "pub" : List Char) = 'p' :: ('u' :: ['b']) from rfl,
      isPrefixOf_cons_cons, hub]
    simp

theorem functions_c6 (d n : List Char)
    (hd1 : d ≠ []) (hd2 : pstrip d = d)
    (hd3 : ∀ c ∈ d, c ≠ '\n' ∧ c ≠ '/')
    (hn1 : n ≠ []) (hn2 : ∀ c ∈ n, isWord c = true) :
    scanWith tryFnAt (c6content d n).length (c6content d n) =
      [⟨n, d, [], ofStr "-> u32"⟩] := by
  have hskip : ∀ t, t <:+ ofStr "impl Widget \x7b\n" → t ≠ [] →
      tryFnAt (t ++ c6fn d n (ofStr "\n\x7d\n")) = none := by
    intro t ht hne
    have htm : t ∈ (ofStr "impl Widget \x7b\n").tails := (List.mem_tails t _).mpr ht
    rw [show (ofStr "impl Widget \x7b\n").tails =
      [ofStr "impl Widget \x7b\n", ofStr "mpl Widget \x7b\n", ofStr "pl Widget \x7b\n",
       ofStr "l Widget \x7b\n", ofStr " Widget \x7b\n", ofStr "Widget \x7b\n",
       ofStr "idget \x7b\n", ofStr "dget \x7b\n", ofStr "get \x7b\n", ofStr "et \x7b\n",
       ofStr "t \x7b\n", ofStr " \x7b\n", ofStr "\x7b\n", ofStr "\n", []] from by decide] at htm
    fin_cases htm
    · exact tryFnAt_none_head 'i' _ (by decide) (by decide)
    · exact tryFnAt_none_head 'm' _ (by decide) (by decide)
    · exact tryFnAt_none_pl _
    · exact tryFnAt_none_head 'l' _ (by decide) (by decide)
    · exact tryFnAt_none_head ' ' _ (by decide) (by decide)
    · exact tryFnAt_none_head 'W' _ (by decide) (by decide)
    · exact tryFnAt_none_head 'i' _ (by decide) (by decide)
    · exact tryFnAt_none_head 'd' _ (by decide) (by decide)
    · exact tryFnAt_none_head 'g' _ (by decide) (by decide)
    · exact tryFnAt_none_head 'e' _ (by decide) (by decide)
    · exact tryFnAt_none_head 't' _ (by decide) (by decide)
    · exact tryFnAt_none_head ' ' _ (by decide) (by decide)
    · exact tryFnAt_none_head '{' _ (by decide) (by decide)
    · exact tryFnAt_none_head '\n' _ (by decide) (by decide)
    · exact absurd rfl hne
  have hsuf2 : ∀ t, t <:+ (';' :: ofStr "\n\x7d\n") → t ≠ [] → tryFnAt t = none := by
    intro t ht hne
    have htm : t ∈ (';' :: ofStr "\n\x7d\n").tails := (List.mem_tails t _).mpr ht
    rw [show (';' :: ofStr "\n\x7d\n").tails =
      [ofStr ";\n\x7d\n", ofStr "\n\x7d\n", ofStr "\x7d\n", ofStr "\n", []]
      from by decide] at htm
    fin_cases htm
    · decide
    · decide
    · decide
    · decide
    · decide
  have hfn3 : tryFnAt ('/' :: (ofStr "// " ++
      (d ++ ('\n' :: c6rest n (ofStr "\n\x7d\n"))))) =
      some (⟨n, d, [], ofStr "-> u32"⟩, ';' :: ofStr "\n\x7d\n") :=
    tryFnAt_c6 d n (ofStr "\n\x7d\n") hd1 hd2 hd3 hn1 hn2
  rw [c6content, List.length_append,
    scanWith_skip tryFnAt _ _ _ hskip,
    show c6fn d n (ofStr "\n\x7d\n") = '/' :: (ofStr "// " ++
      (d ++ ('\n' :: c6rest n (ofStr "\n\x7d\n")))) from rfl,
    List.length_cons, scanWith, hfn3]
  simp only []
  rw [scanWith_none tryFnAt _ _ hsuf2]

theorem impls_c6 (d n : List Char)
    (hd1 : d ≠ []) (hd2 : pstrip d = d)
    (hd3 : ∀ c ∈ d, c ≠ '\n' ∧ c ≠ '/' ∧ c ≠ '}')
    (hn1 : n ≠ []) (hn2 : ∀ c ∈ n, isWord c = true) :
    (scanWith tryImplAt (c6content d n).length (c6content d n)).flatten =
      [⟨n, d, [], ofStr "-> u32"⟩] := by
  have himpl2 : tryImplAt ('i' :: (ofStr "mpl Widget \x7b\n" ++ c6fn d n (ofStr "\n\x7d\n"))) =
      some ([⟨n, d, [], ofStr "-> u32"⟩], '\n' :: ([] : List Char)) :=
    tryImplAt_c6 d n hd1 hd2 hd3 hn1 hn2
  have hsuf : ∀ t, t <:+ ('\n' :: ([] : List Char)) → t ≠ [] → tryImplAt t = none := by
    intro t ht hne
    have htm : t ∈ ('\n' :: ([] : List Char)).tails := (List.mem_tails t _).mpr ht
    rw [show ('\n' :: ([] : List Char)).tails = [ofStr "\n", []] from by decide] at htm
    fin_cases htm
    · decide
    · decide
  rw [show c6content d n =
      'i' :: (ofStr "mpl Widget \x7b\n" ++ c6fn d n (ofStr "\n\x7d\n")) from rfl,
    List.length_cons, scanWith, himpl2]
  simp only []
  rw [scanWith_none tryImplAt _ _ hsuf]
  simp

/-- Claim C6 as amended: for the family of one-method components with a
semicolon-terminated signature (no braced body before the impl's closing
brace), parameterized by the docs text and the method name, the documented
public method inside the `impl` block is matched both by the impl-block scan
and by the file-wide free-function scan: the callable appears once in `impls`
and once in `functions`, its rendered body is emitted under "Methods" and
again under "Constructors" or "Functions" (by the name predicate), and that
body is nonempty.  The original universal claim is false: the counterexample
shows a second documented method after a braced first method is extracted
only by the function scan. -/
theorem c6_impl_callable_twice (d n : List Char)
    (hd1 : d ≠ []) (hd2 : pstrip d = d)
    (hd3 : ∀ c ∈ d, c ≠ '\n' ∧ c ≠ '/' ∧ c ≠ '}')
    (hn1 : n ≠ []) (hn2 : ∀ c ∈ n, isWord c = true) :
    (scan_component none [c6content d n]).impls = [⟨n, d, [], ofStr "-> u32"⟩] ∧
      (scan_component none [c6content d n]).functions = [⟨n, d, [], ofStr "-> u32"⟩] ∧
      methodSection (scan_component none [c6content d n]).impls =
        ofStr "## Methods\n\n" ++ renderEntry ⟨n, d, [], ofStr "-> u32"⟩ ∧
      ctorSection (scan_component none [c6content d n]).functions ++
          funcSection (scan_component none [c6content d n]).functions =
        (if isCtorName ⟨n, d, [], ofStr "-> u32"⟩ then ofStr "## Constructors\n\n"
         else ofStr "## Functions\n\n") ++ renderEntry ⟨n, d, [], ofStr "-> u32"⟩ ∧
      renderEntry ⟨n, d, [], ofStr "-> u32"⟩ ≠ [] := by
  have hrec_i := impls_c6 d n hd1 hd2 hd3 hn1 hn2
  have hrec_f := functions_c6 d n hd1 hd2
    (fun c hc => ⟨(hd3 c hc).1, (hd3 c hc).2.1⟩) hn1 hn2
  have hi : (scan_component none [c6content d n]).impls = [⟨n, d, [], ofStr "-> u32"⟩] := by
    simp only [scan_component, List.foldl_cons, List.foldl_nil, List.nil_append]
    exact hrec_i
  have hf : (scan_component none [c6content d n]).functions =
      [⟨n, d, [], ofStr "-> u32"⟩] := by
    simp only [scan_component, List.foldl_cons, List.foldl_nil, List.nil_append]
    exact hrec_f
  have hentry : renderEntry ⟨n, d, [], ofStr "-> u32"⟩ ≠ [] := by
    rw [renderEntry]
    have hde : d.isEmpty = false := by
      cases d with
      | nil => exact absurd rfl hd1
      | cons dc d' => rfl
    simp only [hde, Bool.false_eq_true, if_false]
    intro he
    have hlen := congrArg List.length he
    rw [List.length_append, show (ofStr "\n```\n\n").length = 6 from rfl,
      List.length_nil] at hlen
    omega
  refine ⟨hi, hf, ?_, ?_, hentry⟩
  · rw [hi, methodSection]
    simp
  · rw [hf]
    by_cases hct : isCtorName ⟨n, d, [], ofStr "-> u32"⟩ = true
    · have hcf : ctorFuncs [(⟨n, d, [], ofStr "-> u32"⟩ : Callable)] =
          [⟨n, d, [], ofStr "-> u32"⟩] := by
        simp [ctorFuncs, List.filter, hct]
      rw [ctorSection, hcf]
      simp only [List.isEmpty_cons, Bool.false_eq_true, if_false]
      rw [funcSection, otherFuncs, hcf]
      simp [hct]
    · have hcf : ctorFuncs [(⟨n, d, [], ofStr "-> u32"⟩ : Callable)] = [] := by
        simp [ctorFuncs, List.filter, hct]
      rw [ctorSection, hcf]
      simp only [List.isEmpty_nil, if_true]
      rw [funcSection, otherFuncs, hcf]
      simp [hct]

theorem c6_witness :
    (scan_component none
        [c6content (ofStr "Makes a gauge.") (ofStr "new_gauge")]).impls =
      [⟨ofStr "new_gauge", ofStr "Makes a gauge.", [], ofStr "-> u32"⟩] ∧
      (scan_component none
          [c6content (ofStr "Makes a gauge.") (ofStr "new_gauge")]).functions =
        [⟨ofStr "new_gauge", ofStr "Makes a gauge.", [], ofStr "-> u32"⟩] ∧
      methodSection (scan_component none
          [c6content (ofStr "Makes a gauge.") (ofStr "new_gauge")]).impls =
        ofStr "## Methods\n\n" ++
          renderEntry ⟨ofStr "new_gauge", ofStr "Makes a gauge.", [], ofStr "-> u32"⟩ ∧
      ctorSection (scan_component none
            [c6content (ofStr "Makes a gauge.") (ofStr "new_gauge")]).functions ++
          funcSection (scan_component none
            [c6content (ofStr "Makes a gauge.") (ofStr "new_gauge")]).functions =
        (if isCtorName ⟨ofStr "new_gauge", ofStr "Makes a gauge.", [], ofStr "-> u32"⟩
         then ofStr "## Constructors\n\n" else ofStr "## Functions\n\n") ++
          renderEntry ⟨ofStr "new_gauge", ofStr "Makes a gauge.", [], ofStr "-> u32"⟩ ∧
      renderEntry ⟨ofStr "new_gauge", ofStr "Makes a gauge.", [], ofStr "-> u32"⟩ ≠ [] :=
  c6_impl_callable_twice (ofStr "Makes a gauge.") (ofStr "new_gauge")
    (by decide) (by decide) (by decide) (by decide) (by decide)


/-- Claim C6, counterexample: the claim quantifies over every documented
public callable declared inside an impl block, but the impl pattern's body
group `[^\x7d]*` truncates the block at the first closing brace.  In an impl
whose first method has a braced body, the second documented method (`get_b`)
is extracted only by the file-wide function scan: it is absent from `impls`
(hence from the "Methods" section) and appears once, under "Functions". -/
theorem c6_counterexample :
    (scan_component none [c6bad]).impls =
        [⟨ofStr "get_a", ofStr "A.", [], ofStr "-> ()"⟩] ∧
      (scan_component none [c6bad]).functions =
        [⟨ofStr "get_a", ofStr "A.", [], ofStr "-> ()"⟩,
         ⟨ofStr "get_b", ofStr "B.", [], ofStr "-> ()"⟩] ∧
      containsSub (ofStr "get_b")
        (methodSection (scan_component none [c6bad]).impls) = false ∧
      containsSub (ofStr "get_b")
        (ctorSection (scan_component none [c6bad]).functions ++
          funcSection (scan_component none [c6bad]).functions) = true := by
  refine ⟨by decide, by decide, by decide, by decide⟩
